import Mathlib

/-!
Verification of the minipb incremental protobuf wire-format decoder.

The definitions below are a shallow embedding of the Rust sources:
byte slices become `List Nat` (each element a byte value `< 256`),
`Result<Result<T, NeedMoreBytes>, DecodingError>` becomes
`Except DecodingError (Option T)` (with `none` playing the role of
`NeedMoreBytes`), `Result<Result<T, Status>, DecodingError>` becomes
`Except DecodingError (Except Status T)`, and machine integers become
`Nat` with explicit `% 2 ^ 64` at the one place where `u64` wrapping
can occur (the shifted-or accumulation inside `read_varint`).
-/

namespace Minipb

/-- Error taxonomy of the crate, from `src/lib.rs` (`enum DecodingError`). -/
inductive DecodingError
  | UnsupportedGroupWireType (tag : Nat)
  | UnknownWireType (tag : Nat)
  | TooManyVarint32Bytes
  | TooManyVarint64Bytes
  | InvalidUtf8
  | FailedMatcherNesting (offset limit : Nat)
  deriving DecidableEq, Repr

/-- Suspension statuses of the crate, from `src/lib.rs` (`enum Status`). -/
inductive Status
  | IdleAtEndOfBuffer
  | NeedMoreBytes
  deriving DecidableEq, Repr

/-- The loop of `read_varint` in `src/pb.rs`: iterate over the bytes already
limited to `max_bytes`, accumulating `val |= ((b & 0x7f) as u64) << (count * 7)`
(a `u64`, hence the `% 2 ^ 64`) and returning `some (count, val)` at the first
byte whose continuation bit `0x80` is clear.  `none` means the loop ran off the
end of the (truncated) input without finding a terminating byte. -/
def readVarintGo : List Nat → Nat → Nat → Option (Nat × Nat)
  | [], _, _ => none
  | b :: rest, count, val =>
    let val2 := val ||| ((b &&& 0x7f) <<< (count * 7) % 2 ^ 64)
    if b &&& 0x80 == 0 then some (count + 1, val2)
    else readVarintGo rest (count + 1) val2

/-- `read_varint` from `src/pb.rs`.  After the loop the Rust code has
`count = min data.len() max_bytes`; if that is still `< max_bytes` the input
was merely too short (`NeedMoreBytes`, modelled as `.ok none`), otherwise the
varint is over-long.  Note the error branch tests `max_bytes == 4` although the
32-bit caller passes `5`. -/
def read_varint (data : List Nat) (max_bytes : Nat) :
    Except DecodingError (Option (Nat × Nat)) :=
  match readVarintGo (data.take max_bytes) 0 0 with
  | some r => .ok (some r)
  | none =>
    if min data.length max_bytes < max_bytes then .ok none
    else if max_bytes == 4 then .error .TooManyVarint32Bytes
    else .error .TooManyVarint64Bytes

/-- `read_varint32` from `src/pb.rs`: `read_varint(data, 5)` with the value
cast `as u32`, i.e. reduced `% 2 ^ 32`. -/
def read_varint32 (data : List Nat) : Except DecodingError (Option (Nat × Nat)) :=
  match read_varint data 5 with
  | .ok (some (bytes, val)) => .ok (some (bytes, val % 2 ^ 32))
  | .ok none => .ok none
  | .error e => .error e

/-- `read_varint64` from `src/pb.rs`: `read_varint(data, 10)`. -/
def read_varint64 (data : List Nat) : Except DecodingError (Option (Nat × Nat)) :=
  read_varint data 10

/-- Little-endian reassembly used by `u32::from_le_bytes` / `u64::from_le_bytes`. -/
def fromLeBytes : List Nat → Nat
  | [] => 0
  | b :: rest => b + 2 ^ 8 * fromLeBytes rest

/-- `read_fixed32` from `src/pb.rs`: needs 4 bytes, little-endian. -/
def read_fixed32 (data : List Nat) : Option (Nat × Nat) :=
  if data.length < 4 then none
  else some (4, fromLeBytes (data.take 4))

/-- `read_fixed64` from `src/pb.rs`: needs 8 bytes, little-endian. -/
def read_fixed64 (data : List Nat) : Option (Nat × Nat) :=
  if data.length < 8 then none
  else some (8, fromLeBytes (data.take 8))

/-- Wire types from `src/lib.rs` (`enum WireType`). -/
inductive WireType
  | Varint
  | Fixed64
  | LengthDelimited
  | Fixed32
  deriving DecidableEq, Repr

/-- `TryFrom<u32> for WireType` from `src/lib.rs`: dispatch on `tag & 0x7`. -/
def WireType.tryFrom (tag : Nat) : Except DecodingError WireType :=
  match tag &&& 0x7 with
  | 0 => .ok .Varint
  | 1 => .ok .Fixed64
  | 2 => .ok .LengthDelimited
  | 3 => .error (.UnsupportedGroupWireType tag)
  | 4 => .error (.UnsupportedGroupWireType tag)
  | 5 => .ok .Fixed32
  | _ => .error (.UnknownWireType tag)

/-- `enum FieldValue` from `src/lib.rs`. -/
inductive FieldValue
  | Varint (x : Nat)
  | Fixed64 (x : Nat)
  | Fixed32 (x : Nat)
  | DataLength (x : Nat)
  deriving DecidableEq, Repr

/-- `struct FieldInfo` from `src/lib.rs`. -/
structure FieldInfo where
  id : Nat
  kind : WireType
  value : FieldValue
  deriving DecidableEq, Repr

/-- `FieldInfo::bytes_to_skip` from `src/lib.rs`. -/
def FieldInfo.bytes_to_skip (f : FieldInfo) : Nat :=
  match f.value with
  | .DataLength x => x
  | _ => 0

/-- `struct ReadField` from `src/lib.rs` (the borrow is replaced by an owned
`FieldInfo`, which is what the borrow points at). -/
structure ReadField where
  consumed : Nat
  field : FieldInfo
  deriving DecidableEq, Repr

/-- `ReadField::field_id`. -/
def ReadField.field_id (r : ReadField) : Nat := r.field.id

/-- `ReadField::bytes_to_skip`. -/
def ReadField.bytes_to_skip (r : ReadField) : Nat := r.consumed + r.field.bytes_to_skip

/-- `ReadField::field_len`. -/
def ReadField.field_len (r : ReadField) : Nat := r.field.bytes_to_skip

/-- `ReadField::wire_type`. -/
def ReadField.wire_type (r : ReadField) : WireType := r.field.kind

/-- `ReadField::is_length_delimited`. -/
def ReadField.is_length_delimited (r : ReadField) : Bool :=
  match r.field.kind with
  | .LengthDelimited => true
  | _ => false

/-- `FieldReader::next` from `src/field_reader.rs`.  The struct's only field
(`field: Option<FieldInfo>`) exists to give the returned borrow a home and is
overwritten on every successful call, so the reader is modelled as a pure
function of the input slice. -/
def FieldReader.next (data : List Nat) : Except DecodingError (Except Status ReadField) :=
  if data.isEmpty then .ok (.error .IdleAtEndOfBuffer)
  else
    match read_varint32 data with
    | .error e => .error e
    | .ok none => .ok (.error .NeedMoreBytes)
    | .ok (some (consumed, tag)) =>
      let data2 := data.drop consumed
      let fieldId := tag >>> 3
      match WireType.tryFrom tag with
      | .error e => .error e
      | .ok kind =>
        let vres : Except DecodingError (Option (Nat × FieldValue)) :=
          match kind with
          | .Varint =>
            match read_varint64 data2 with
            | .error e => .error e
            | .ok none => .ok none
            | .ok (some (c, v)) => .ok (some (c, .Varint v))
          | .Fixed32 =>
            match read_fixed32 data2 with
            | none => .ok none
            | some (c, v) => .ok (some (c, .Fixed32 v))
          | .Fixed64 =>
            match read_fixed64 data2 with
            | none => .ok none
            | some (c, v) => .ok (some (c, .Fixed64 v))
          | .LengthDelimited =>
            match read_varint32 data2 with
            | .error e => .error e
            | .ok none => .ok none
            | .ok (some (c, l)) => .ok (some (c, .DataLength l))
        match vres with
        | .error e => .error e
        | .ok none => .ok (.error .NeedMoreBytes)
        | .ok (some (additional, value)) =>
          .ok (.ok { consumed := consumed + additional
                     field := { id := fieldId, kind := kind, value := value } })

/-- Modelled from the spec (§4.1, Glossary): the canonical LEB128 varint
encoder — low 7 bits per byte assembled little-endian, continuation bit `0x80`
on every byte except the last.  The repository's own encoder (the
`output_with_field_id` test helper invoked by `src/field_reader.rs`) is not
part of `src/`, so the encoder is reconstructed from the spec's words. -/
def varintEncode (n : Nat) : List Nat :=
  if _h : n < 0x80 then [n]
  else (n % 0x80 + 0x80) :: varintEncode (n / 0x80)
termination_by n
decreasing_by exact Nat.div_lt_self (by omega) (by norm_num)

/-- Modelled from the spec (§4.1): little-endian fixed-width byte encoding, as
an encoder produces for fixed32/fixed64 values. -/
def toLeBytes : Nat → Nat → List Nat
  | 0, _ => []
  | k + 1, n => n % 256 :: toLeBytes k (n / 256)

/-- Modelled from the spec (§8 round-trip property): the (wire-type, value)
pairs a protobuf encoder can produce for a single field. -/
inductive EncValue
  | V (n : Nat)
  | F64 (n : Nat)
  | F32 (n : Nat)
  | LD (len : Nat)
  deriving DecidableEq, Repr

/-- Wire-type bits an encoder attaches for each value kind. -/
def EncValue.wireBits : EncValue → Nat
  | .V _ => 0
  | .F64 _ => 1
  | .LD _ => 2
  | .F32 _ => 5

/-- Ranges an encoder respects: varint and fixed64 carry `u64` values, fixed32
a `u32`, and a declared payload length is a `u32`. -/
def EncValue.inRange : EncValue → Prop
  | .V n => n < 2 ^ 64
  | .F64 n => n < 2 ^ 64
  | .F32 n => n < 2 ^ 32
  | .LD len => len < 2 ^ 32

/-- The `FieldValue` the decoder is expected to produce for an encoded value. -/
def EncValue.fieldValue : EncValue → FieldValue
  | .V n => .Varint n
  | .F64 n => .Fixed64 n
  | .F32 n => .Fixed32 n
  | .LD len => .DataLength len

/-- The `WireType` corresponding to an encodable value. -/
def EncValue.wireType : EncValue → WireType
  | .V _ => .Varint
  | .F64 _ => .Fixed64
  | .F32 _ => .Fixed32
  | .LD _ => .LengthDelimited

/-- Modelled from the spec (§4.1, §8): the header bytes a protobuf encoder
emits for one field — the tag varint `(id << 3) | wire-type` followed by the
value's wire encoding (for length-delimited fields only the declared length
varint; payload bytes follow separately and are not read by `FieldReader`). -/
def encodeHead (id : Nat) (v : EncValue) : List Nat :=
  varintEncode (id * 8 + v.wireBits) ++
    match v with
    | .V n => varintEncode n
    | .F64 n => toLeBytes 8 n
    | .F32 n => toLeBytes 4 n
    | .LD len => varintEncode len

/-- The `ReadField` that decoding `encodeHead id v` produces. -/
def headerReadField (id : Nat) (v : EncValue) : ReadField :=
  { consumed := (encodeHead id v).length
    field := { id := id, kind := v.wireType, value := v.fieldValue } }

/-- `enum Cont` from `src/matcher_fields.rs`. -/
inductive Cont (T : Type)
  | Message (tag : Option T)
  | ReadSlice (tag : T)
  | ReadValue (tag : T)
  deriving DecidableEq, Repr

/-- `struct Skip` from `src/matcher_fields.rs`. -/
structure Skip (T : Type) where
  tag : T
  deriving DecidableEq, Repr

/-- `enum Value` from `src/matcher_fields.rs`; a `Slice` carries the offset
range `Range<u64>`, not bytes. -/
inductive Value
  | Marker
  | Varint (x : Nat)
  | Fixed64 (x : Nat)
  | Fixed32 (x : Nat)
  | Slice (start stop : Nat)
  deriving DecidableEq, Repr

/-- `struct Matched` from `src/matcher_fields.rs`. -/
structure Matched (T : Type) where
  tag : T
  offset : Nat
  value : Value
  deriving DecidableEq, Repr

/-- `enum State` from `src/matcher_fields.rs`. -/
inductive MState (T : Type)
  | Ready
  | DecidingAfter
  | Gathering (tag : T) (readAt start amount : Nat)
  | Skipping (tag : T) (readAt start amount : Nat)
  deriving DecidableEq, Repr

/-- A `Matcher` implementation (`trait Matcher` in `src/matcher_fields.rs`):
the `&mut self` receivers become state-passing functions on a state type `S`.
`decide_before` returns `none` exactly where a Rust implementation would
panic (such as a failed `assert!`). -/
structure MatcherPolicy (S T : Type) where
  decide_before : S → Nat → ReadField → Option (S × (Cont T ⊕ Skip T))
  decide_after : S → Nat → S × (Bool × Option T)

/-- `struct MatcherFields` from `src/matcher_fields.rs` (the embedded
`FieldReader` is stateless across successful calls and therefore dropped). -/
structure MatcherFields (S T : Type) where
  offset : Nat
  matcher : S
  state : MState T
  deriving DecidableEq, Repr

/-- `MatcherFields::new`. -/
def MatcherFields.new {S T : Type} (matcher : S) : MatcherFields S T :=
  { offset := 0, matcher := matcher, state := .Ready }

/-- `MatcherFields::advance` from `src/matcher_fields.rs`.  The result is
`none` when caller-supplied policy code would panic (`assert!` in an example
matcher, or the driver's own `unreachable!` on `ReadValue` of a
length-delimited field); otherwise the updated machine, the remaining buffer,
and a decoding error, suspension status, or optional emitted match. -/
def MatcherFields.advance {S T : Type} (M : MatcherPolicy S T)
    (mf : MatcherFields S T) (buf : List Nat) :
    Option (Except DecodingError
      (MatcherFields S T × List Nat × Except Status (Option (Matched T)))) :=
  match mf.state with
  | .DecidingAfter =>
    let r := M.decide_after mf.matcher mf.offset
    let st := if r.2.1 then MState.DecidingAfter else MState.Ready
    let mf2 : MatcherFields S T := { mf with matcher := r.1, state := st }
    match r.2.2 with
    | some tag =>
      some (.ok (mf2, buf, .ok (some { tag := tag, offset := mf.offset, value := .Marker })))
    | none => some (.ok (mf2, buf, .ok none))
  | .Gathering tag readAt start amount =>
    if buf.length < amount then some (.ok (mf, buf, .error .NeedMoreBytes))
    else
      some (.ok ({ mf with offset := mf.offset + amount, state := .DecidingAfter },
        buf.drop amount,
        .ok (some { tag := tag, offset := readAt, value := .Slice start (mf.offset + amount) })))
  | .Skipping tag readAt start amount =>
    let skipped := min amount buf.length
    let remaining := amount - skipped
    if remaining = 0 then
      some (.ok ({ mf with offset := mf.offset + skipped, state := .DecidingAfter },
        buf.drop skipped,
        .ok (some { tag := tag, offset := readAt, value := .Slice start (mf.offset + skipped) })))
    else
      some (.ok ({ mf with offset := mf.offset + skipped, state := .Skipping tag readAt start remaining },
        buf.drop skipped, .error .NeedMoreBytes))
  | .Ready =>
    match FieldReader.next buf with
    | .error e => some (.error e)
    | .ok (.error s) => some (.ok (mf, buf, .error s))
    | .ok (.ok read) =>
      let consumed := read.consumed
      let buf2 := buf.drop consumed
      let readAt := mf.offset
      let offset2 := mf.offset + consumed
      match M.decide_before mf.matcher readAt read with
      | none => none
      | some (s2, .inl (.Message maybeTag)) =>
        some (.ok ({ offset := offset2, matcher := s2, state := .DecidingAfter }, buf2,
          .ok (maybeTag.map fun tag => { tag := tag, offset := readAt, value := .Marker })))
      | some (s2, .inl (.ReadValue tag)) =>
        match read.field.value with
        | .Varint x =>
          some (.ok ({ offset := offset2, matcher := s2, state := .DecidingAfter }, buf2,
            .ok (some { tag := tag, offset := readAt, value := .Varint x })))
        | .Fixed64 x =>
          some (.ok ({ offset := offset2, matcher := s2, state := .DecidingAfter }, buf2,
            .ok (some { tag := tag, offset := readAt, value := .Fixed64 x })))
        | .Fixed32 x =>
          some (.ok ({ offset := offset2, matcher := s2, state := .DecidingAfter }, buf2,
            .ok (some { tag := tag, offset := readAt, value := .Fixed32 x })))
        | .DataLength _ => none
      | some (s2, .inl (.ReadSlice tag)) =>
        some (.ok ({ offset := offset2, matcher := s2, state := .Gathering tag readAt offset2 read.field_len },
          buf2, .ok none))
      | some (s2, .inr sk) =>
        some (.ok ({ offset := offset2, matcher := s2, state := .Skipping sk.tag readAt offset2 read.field_len },
          buf2, .ok none))

/-- Outcome of a fuel-bounded run: `panicked` models a Rust panic, `starved`
fuel exhaustion (the Rust loops carry no bound), `got` a returned value. -/
inductive RunRes (A : Type)
  | panicked
  | starved
  | got (a : A)
  deriving DecidableEq, Repr

/-- `MatcherFields::next`: loop `advance` until it yields a match, a
suspension status, or a decoding error. -/
def MatcherFields.nextFuel {S T : Type} (M : MatcherPolicy S T) :
    Nat → MatcherFields S T → List Nat →
    RunRes (Except DecodingError (MatcherFields S T × List Nat × Except Status (Matched T)))
  | 0, _, _ => .starved
  | fuel + 1, mf, buf =>
    match MatcherFields.advance M mf buf with
    | none => .panicked
    | some (.error e) => .got (.error e)
    | some (.ok (mf2, buf2, .error s)) => .got (.ok (mf2, buf2, .error s))
    | some (.ok (mf2, buf2, .ok (some m))) => .got (.ok (mf2, buf2, .ok m))
    | some (.ok (mf2, buf2, .ok none)) => MatcherFields.nextFuel M fuel mf2 buf2

/-- A decode session over one buffer: keep calling `next` on the remaining
bytes, collecting the emitted matches, until the driver suspends, errors,
or panics. -/
def MatcherFields.session {S T : Type} (M : MatcherPolicy S T) :
    Nat → MatcherFields S T → List Nat →
    RunRes (DecodingError ⊕ Status) × List (Matched T)
  | 0, _, _ => (.starved, [])
  | fuel + 1, mf, buf =>
    match MatcherFields.nextFuel M (fuel + 1) mf buf with
    | .panicked => (.panicked, [])
    | .starved => (.starved, [])
    | .got (.error e) => (.got (.inl e), [])
    | .got (.ok (_, _, .error s)) => (.got (.inr s), [])
    | .got (.ok (mf2, buf2, .ok m)) =>
      let r := MatcherFields.session M fuel mf2 buf2
      (r.1, m :: r.2)

/-- Feed a byte list to the machine one byte per `advance` call, recording
each call's outcome. -/
def MatcherFields.feedSingles {S T : Type} (M : MatcherPolicy S T) :
    MatcherFields S T → List Nat →
    Option (Except DecodingError
      (MatcherFields S T × List (Except Status (Option (Matched T)))))
  | mf, [] => some (.ok (mf, []))
  | mf, b :: bs =>
    match MatcherFields.advance M mf [b] with
    | none => none
    | some (.error e) => some (.error e)
    | some (.ok (mf2, _, res)) =>
      match MatcherFields.feedSingles M mf2 bs with
      | none => none
      | some (.error e) => some (.error e)
      | some (.ok (mf3, rs)) => some (.ok (mf3, res :: rs))

/-- Lower-bound invariant for emission order: `e` is at most the machine's
offset, and at most the remembered header offset of any pending
gathered/skipped field. -/
def MatcherFields.emitLB {S T : Type} (e : Nat) (mf : MatcherFields S T) : Prop :=
  e ≤ mf.offset ∧
    match mf.state with
    | .Gathering _ readAt _ _ => e ≤ readAt ∧ readAt ≤ mf.offset
    | .Skipping _ readAt _ _ => e ≤ readAt ∧ readAt ≤ mf.offset
    | _ => True

/-- The matcher state of the dag-pb link extractor (`enum Document` in
`examples/ipfs.rs`). -/
inductive Document
  | Top
  | Link (untilOff : Nat)
  deriving DecidableEq, Repr

/-- The tag type of the dag-pb link extractor (`enum DagPbElement` in
`examples/ipfs.rs`). -/
inductive DagPbElement
  | StartPbLink
  | EndPbLink
  | PbLinkHash
  | PbLinkName
  | PbLinkTotalSize
  | PbLinkExtraField (id : Nat)
  | TopExtraField (id : Nat)
  deriving DecidableEq, Repr

/-- `Matcher::decide_before` for `Document` (`examples/ipfs.rs`).  The
`assert!(offset < *until, ..)` guarding the nested-message boundary becomes
`none` (panic) when violated. -/
def Document.decide_before (s : Document) (offset : Nat) (read : ReadField) :
    Option (Document × (Cont DagPbElement ⊕ Skip DagPbElement)) :=
  match s with
  | .Top =>
    if read.field_id = 2 then
      some (.Link (offset + read.bytes_to_skip), .inl (.Message (some .StartPbLink)))
    else
      some (.Top, .inr { tag := .TopExtraField read.field_id })
  | .Link u =>
    if offset < u then
      some (.Link u,
        if read.field_id = 1 then .inl (.ReadSlice .PbLinkHash)
        else if read.field_id = 2 then .inl (.ReadSlice .PbLinkName)
        else if read.field_id = 3 then .inl (.ReadValue .PbLinkTotalSize)
        else .inr { tag := .PbLinkExtraField read.field_id })
    else none

/-- `Matcher::decide_after` for `Document` (`examples/ipfs.rs`). -/
def Document.decide_after (s : Document) (offset : Nat) :
    Document × (Bool × Option DagPbElement) :=
  match s with
  | .Link u =>
    if offset = u then (.Top, (false, some .EndPbLink)) else (.Link u, (false, none))
  | .Top => (.Top, (false, none))

/-- The `Document` matcher packaged as a policy. -/
def docPolicy : MatcherPolicy Document DagPbElement :=
  { decide_before := Document.decide_before, decide_after := Document.decide_after }

/-- A matcher policy that skips every field under a unit tag (used to
instantiate generic theorems on concrete runs). -/
def skipAllPolicy : MatcherPolicy Unit Unit :=
  { decide_before := fun s _ _ => some (s, .inr { tag := () })
    decide_after := fun s _ => (s, (false, none)) }

/-- `struct Slicer` from `src/gather_fields.rs`: `wrap` records the global
offset of the buffer's first byte via `last_offset.saturating_sub(len)`
(natural subtraction is saturating). -/
structure Slicer where
  buffer : List Nat
  first_offset : Nat
  deriving DecidableEq, Repr

/-- `Slicer::wrap`. -/
def Slicer.wrap (buffer : List Nat) (last_offset : Nat) : Slicer :=
  { buffer := buffer, first_offset := last_offset - buffer.length }

/-- A `Gatherer` implementation (`trait Gatherer<'a>` in
`src/gather_fields.rs`): state-passing over an accumulator type `G`, with
`update` allowed to fail with a `DecodingError`. -/
structure GathererPolicy (G T R : Type) where
  update : G → Matched T → Slicer → Except DecodingError (G × Option R)
  min_offset : G → Option Nat

/-- `struct GatheredFields` from `src/gather_fields.rs`. -/
structure GatheredFields (S T G : Type) where
  reader : MatcherFields S T
  gatherer : G
  cached_min_offset : Option Nat
  deriving DecidableEq, Repr

/-- `GatheredFields::new`. -/
def GatheredFields.new {S T G : Type} (matcher : S) (gatherer : G) :
    GatheredFields S T G :=
  { reader := MatcherFields.new matcher, gatherer := gatherer, cached_min_offset := none }

/-- The `loop` inside `GatheredFields::next`: drive the inner reader over the
window `tmp`, feeding each match to the gatherer (with a `Slicer` wrapped
around the traversed prefix of `buf`), until the gatherer produces a value or
the reader suspends or errors.  The cached minimum is invalidated (`take()`)
at every match. -/
def GatheredFields.loopFuel {S T G R : Type} (M : MatcherPolicy S T)
    (P : GathererPolicy G T R) :
    Nat → MatcherFields S T → G → Option Nat → List Nat → List Nat →
    RunRes (Except DecodingError
      (MatcherFields S T × G × Option Nat × List Nat × Except Status R))
  | 0, _, _, _, _, _ => .starved
  | fuel + 1, mf, g, cached, buf, tmp =>
    match MatcherFields.nextFuel M (fuel + 1) mf tmp with
    | .panicked => .panicked
    | .starved => .starved
    | .got (.error e) => .got (.error e)
    | .got (.ok (mf2, tmp2, .error s)) => .got (.ok (mf2, g, cached, tmp2, .error s))
    | .got (.ok (mf2, tmp2, .ok m)) =>
      let sliced_from := buf.take (buf.length - tmp2.length)
      match P.update g m (Slicer.wrap sliced_from mf2.offset) with
      | .error e => .got (.error e)
      | .ok (g2, some r) => .got (.ok (mf2, g2, none, tmp2, .ok r))
      | .ok (g2, none) => GatheredFields.loopFuel M P fuel mf2 g2 none buf tmp2

/-- `GatheredFields::next` (`impl Reader for GatheredFields` in
`src/gather_fields.rs`).  When an aggregate is pending the inner window skips
the retained bytes (`&buf[diff..]`, a panic if `diff` exceeds the buffer); on
returning, the cached minimum is refreshed from the gatherer if empty, and the
caller's buffer is advanced to the unconsumed remainder only when no minimum
is pending. -/
def GatheredFields.next {S T G R : Type} (M : MatcherPolicy S T)
    (P : GathererPolicy G T R) (fuel : Nat) (gf : GatheredFields S T G)
    (buf : List Nat) :
    RunRes (Except DecodingError (GatheredFields S T G × List Nat × Except Status R)) :=
  let tmpOpt : Option (List Nat) :=
    match gf.cached_min_offset with
    | some min =>
      if gf.reader.offset - min ≤ buf.length then
        some (buf.drop (gf.reader.offset - min))
      else none
    | none => some buf
  match tmpOpt with
  | none => .panicked
  | some tmp =>
    match GatheredFields.loopFuel M P fuel gf.reader gf.gatherer gf.cached_min_offset buf tmp with
    | .panicked => .panicked
    | .starved => .starved
    | .got (.error e) => .got (.error e)
    | .got (.ok (mf2, g2, cached2, tmp2, res)) =>
      let cached3 := match cached2 with
        | some c => some c
        | none => P.min_offset g2
      let buf2 := match cached3 with
        | none => tmp2
        | some _ => buf
      .got (.ok ({ reader := mf2, gatherer := g2, cached_min_offset := cached3 }, buf2, res))

/-- A gatherer policy that returns every match unchanged and retains nothing
(used to instantiate generic theorems on concrete runs). -/
def passGatherer : GathererPolicy Unit Unit (Matched Unit) :=
  { update := fun g m _ => .ok (g, some m), min_offset := fun _ => none }

/-- If every byte still has the continuation bit set, the varint loop runs off
the end of its input without producing a value. -/
theorem readVarintGo_all_cont : ∀ (bs : List Nat) (c v : Nat),
    (∀ b ∈ bs, b &&& 0x80 ≠ 0) → readVarintGo bs c v = none := by
  intro bs
  induction bs with
  | nil => intro c v _; rfl
  | cons b rest ih =>
    intro c v h
    have hb : b &&& 0x80 ≠ 0 := h b (List.mem_cons_self b rest)
    simp only [readVarintGo]
    rw [if_neg (by simpa using hb)]
    exact ih _ _ fun x hx => h x (List.mem_cons_of_mem _ hx)

/-- If the input splits as continuation bytes, then a terminating byte, the
varint loop stops exactly after the terminating byte. -/
theorem readVarintGo_first_term : ∀ (pre : List Nat) (t : Nat) (rest : List Nat) (c v : Nat),
    (∀ b ∈ pre, b &&& 0x80 ≠ 0) → t &&& 0x80 = 0 →
    ∃ w, readVarintGo (pre ++ t :: rest) c v = some (c + pre.length + 1, w) := by
  intro pre
  induction pre with
  | nil =>
    intro t rest c v _ ht
    refine ⟨v ||| ((t &&& 0x7f) <<< (c * 7) % 2 ^ 64), ?_⟩
    simp only [List.nil_append, readVarintGo, List.length_nil]
    rw [if_pos (by simpa using ht)]
  | cons b pre ih =>
    intro t rest c v h ht
    have hb : b &&& 0x80 ≠ 0 := h b (List.mem_cons_self b pre)
    obtain ⟨w, hw⟩ := ih t rest (c + 1) (v ||| ((b &&& 0x7f) <<< (c * 7) % 2 ^ 64))
      (fun x hx => h x (List.mem_cons_of_mem _ hx)) ht
    refine ⟨w, ?_⟩
    simp only [List.cons_append, readVarintGo]
    rw [if_neg (by simpa using hb)]
    rw [show pre.append (t :: rest) = pre ++ t :: rest from rfl, hw]
    congr 2
    simp only [List.length_cons]
    omega

/-- C1: for inputs whose first 5 (resp. 10) bytes all carry the continuation
bit, the claim expects `TooManyVarint32Bytes` from `read_varint32`.  The code
instead yields `TooManyVarint64Bytes` in both cases, because `read_varint`
tests `max_bytes == 4` while `read_varint32` passes `max_bytes = 5`; the
64-bit half of the claim does hold. -/
theorem c1_varint_limit_errors (data32 data64 : List Nat)
    (h32len : 5 ≤ data32.length) (h32 : ∀ b ∈ data32.take 5, b &&& 0x80 ≠ 0)
    (h64len : 10 ≤ data64.length) (h64 : ∀ b ∈ data64.take 10, b &&& 0x80 ≠ 0) :
    read_varint32 data32 = .error .TooManyVarint64Bytes ∧
    read_varint32 data32 ≠ .error .TooManyVarint32Bytes ∧
    read_varint64 data64 = .error .TooManyVarint64Bytes := by
  have e32 : read_varint data32 5 = .error .TooManyVarint64Bytes := by
    unfold read_varint
    rw [readVarintGo_all_cont _ 0 0 h32]
    have hmin : min data32.length 5 = 5 := by omega
    rw [hmin]
    norm_num
  have e64 : read_varint data64 10 = .error .TooManyVarint64Bytes := by
    unfold read_varint
    rw [readVarintGo_all_cont _ 0 0 h64]
    have hmin : min data64.length 10 = 10 := by omega
    rw [hmin]
    norm_num
  refine ⟨?_, ?_, e64⟩
  · unfold read_varint32
    rw [e32]
  · unfold read_varint32
    rw [e32]
    simp

/-- C1 witness: concrete all-continuation inputs. -/
theorem c1_varint_limit_errors_witness :
    read_varint32 (List.replicate 5 0x80) = .error .TooManyVarint64Bytes ∧
    read_varint32 (List.replicate 5 0x80) ≠ .error .TooManyVarint32Bytes ∧
    read_varint64 (List.replicate 10 0x80) = .error .TooManyVarint64Bytes :=
  c1_varint_limit_errors (List.replicate 5 0x80) (List.replicate 10 0x80)
    (by decide) (by decide) (by decide) (by decide)

/-- Masking with `0x7f` is reduction modulo 128. -/
theorem and127_eq_mod (b : Nat) : b &&& 127 = b % 128 := by
  have h := Nat.and_pow_two_sub_one_eq_mod b 7
  norm_num at h
  exact h

/-- Masking with `0x7` is reduction modulo 8. -/
theorem and7_eq_mod (b : Nat) : b &&& 7 = b % 8 := by
  have h := Nat.and_pow_two_sub_one_eq_mod b 3
  norm_num at h
  exact h

/-- Bytes below 128 have a clear continuation bit. -/
theorem and128_of_lt (b : Nat) (h : b < 128) : b &&& 128 = 0 := by
  have h7 : (128 : Nat) = 2 ^ 7 := by norm_num
  rw [h7, Nat.and_two_pow]
  have hb : b.testBit 7 = false := Nat.testBit_lt_two_pow (by omega)
  rw [hb]
  rfl

/-- Bytes in `[128, 256)` have the continuation bit set. -/
theorem and128_of_hi (b : Nat) (h1 : 128 ≤ b) (h2 : b < 256) : b &&& 128 ≠ 0 := by
  have h7 : (128 : Nat) = 2 ^ 7 := by norm_num
  rw [h7, Nat.and_two_pow]
  have hb : b.testBit 7 = true := by
    rw [Nat.testBit_to_div_mod]
    have hd : b / 2 ^ 7 = 1 := by
      rw [← h7]
      omega
    rw [hd]
    decide
  rw [hb]
  norm_num

/-- Bitwise or of a small number with a shifted one is plain addition. -/
theorem lor_mul_pow (v x k : Nat) (h : v < 2 ^ k) :
    v ||| x * 2 ^ k = v + x * 2 ^ k := by
  apply Nat.eq_of_testBit_eq
  intro i
  rw [Nat.testBit_lor]
  have hrw : v + x * 2 ^ k = 2 ^ k * x + v := by ring
  have hsh : (x * 2 ^ k).testBit i = (decide (k ≤ i) && x.testBit (i - k)) := by
    rw [← Nat.shiftLeft_eq]
    exact Nat.testBit_shiftLeft ..
  rcases Nat.lt_or_ge i k with hi | hi
  · have hd : ¬ (k ≤ i) := by omega
    rw [hsh]
    simp only [hd, decide_False, Bool.false_and, Bool.or_false]
    rw [hrw, Nat.testBit_mul_pow_two_add _ h i]
    simp [hi]
  · have hv : v.testBit i = false := by
      apply Nat.testBit_lt_two_pow
      calc v < 2 ^ k := h
        _ ≤ 2 ^ i := Nat.pow_le_pow_right (by norm_num) hi
    rw [hsh]
    simp only [hv, Bool.false_or, hi, decide_True, Bool.true_and]
    rw [hrw, Nat.testBit_mul_pow_two_add _ h i]
    simp [Nat.not_lt.mpr hi]

/-- A varint encoding is never empty. -/
theorem varintEncode_ne_nil (n : Nat) : varintEncode n ≠ [] := by
  rw [varintEncode]
  split <;> simp

/-- Every byte produced by the varint encoder is a byte value. -/
theorem varintEncode_lt_256 (n : Nat) : ∀ b ∈ varintEncode n, b < 256 := by
  induction n using Nat.strong_induction_on with
  | _ n ih =>
    rw [varintEncode]
    split
    · intro b hb
      simp only [List.mem_singleton] at hb
      omega
    · intro b hb
      rcases List.mem_cons.mp hb with hb | hb
      · omega
      · exact ih (n / 0x80) (Nat.div_lt_self (by omega) (by norm_num)) b hb

/-- Every byte of a varint encoding except the last has the continuation bit. -/
theorem varintEncode_dropLast_cont (n : Nat) :
    ∀ b ∈ (varintEncode n).dropLast, b &&& 0x80 ≠ 0 := by
  induction n using Nat.strong_induction_on with
  | _ n ih =>
    rw [varintEncode]
    split
    · simp
    · intro b hb
      rw [List.dropLast_cons_of_ne_nil (varintEncode_ne_nil _)] at hb
      rcases List.mem_cons.mp hb with hb | hb
      · subst hb
        exact and128_of_hi _ (by omega) (by omega)
      · exact ih (n / 0x80) (Nat.div_lt_self (by omega) (by norm_num)) b hb

/-- Strict prefixes of a varint encoding consist of continuation bytes only. -/
theorem varintEncode_take_cont (n k : Nat) (h : k < (varintEncode n).length) :
    ∀ b ∈ (varintEncode n).take k, b &&& 0x80 ≠ 0 := by
  intro b hb
  apply varintEncode_dropLast_cont n
  have hdl : (varintEncode n).dropLast =
      (varintEncode n).take ((varintEncode n).length - 1) := List.dropLast_eq_take _
  have htk : (varintEncode n).take k = ((varintEncode n).dropLast).take k := by
    rw [hdl, List.take_take]
    congr 1
    omega
  rw [htk] at hb
  exact List.take_subset _ _ hb

/-- Size bound for the varint encoder: a value below `2 ^ (7 m)` encodes in at
most `m` bytes. -/
theorem varintEncode_length_le : ∀ (m n : Nat), 1 ≤ m → n < 2 ^ (m * 7) →
    (varintEncode n).length ≤ m := by
  intro m
  induction m with
  | zero => omega
  | succ m ih =>
    intro n _ hn
    rw [varintEncode]
    split
    · simp
    · rename_i hge
      have hm : 1 ≤ m := by
        by_contra hm0
        have : m = 0 := by omega
        subst this
        norm_num at hn
        omega
      have hq : n / 0x80 < 2 ^ (m * 7) := by
        apply Nat.div_lt_of_lt_mul
        have hpow : 2 ^ ((m + 1) * 7) = 0x80 * 2 ^ (m * 7) := by
          rw [show (m + 1) * 7 = 7 + m * 7 by ring, pow_add]
          norm_num
        rw [← hpow]
        exact hn
      have := ih (n / 0x80) hm hq
      simp only [List.length_cons]
      omega

/-- Decoding a canonical varint encoding: the loop consumes exactly the
encoding and adds the encoded value, scaled to the current bit position, to
the accumulator. -/
theorem readVarintGo_encode : ∀ (n c v : Nat) (rest : List Nat),
    v < 2 ^ (c * 7) → n * 2 ^ (c * 7) < 2 ^ 64 →
    readVarintGo (varintEncode n ++ rest) c v =
      some (c + (varintEncode n).length, v + n * 2 ^ (c * 7)) := by
  intro n
  induction n using Nat.strong_induction_on with
  | _ n ih =>
    intro c v rest hv hn
    rw [varintEncode]
    split
    · rename_i hlt
      simp only [List.cons_append, List.nil_append, readVarintGo, List.length_singleton,
        List.append_eq]
      rw [if_pos (by simp [and128_of_lt n (by omega)])]
      rw [and127_eq_mod, Nat.mod_eq_of_lt (show n < 128 by omega), Nat.shiftLeft_eq,
        Nat.mod_eq_of_lt hn, lor_mul_pow _ _ _ hv]
    · rename_i hge
      simp only [List.cons_append, readVarintGo, List.length_cons, List.append_eq]
      rw [if_neg (by simp [and128_of_hi (n % 0x80 + 0x80) (by omega) (by omega)])]
      rw [and127_eq_mod, Nat.add_mod_right, Nat.mod_mod_of_dvd n (dvd_refl 0x80),
        Nat.shiftLeft_eq]
      have hsm : n % 0x80 * 2 ^ (c * 7) < 2 ^ 64 := by
        calc n % 0x80 * 2 ^ (c * 7) ≤ n * 2 ^ (c * 7) :=
              Nat.mul_le_mul_right _ (Nat.mod_le _ _)
          _ < 2 ^ 64 := hn
      rw [Nat.mod_eq_of_lt hsm, lor_mul_pow _ _ _ hv]
      have hstep : 2 ^ ((c + 1) * 7) = 2 ^ (c * 7) * 0x80 := by
        rw [show (c + 1) * 7 = c * 7 + 7 by ring, pow_add]
        norm_num
      have hv2 : v + n % 0x80 * 2 ^ (c * 7) < 2 ^ ((c + 1) * 7) := by
        rw [hstep]
        have h1 : n % 0x80 ≤ 127 := by omega
        have h2 : n % 0x80 * 2 ^ (c * 7) ≤ 127 * 2 ^ (c * 7) :=
          Nat.mul_le_mul_right _ h1
        have h3 : 127 * 2 ^ (c * 7) + 2 ^ (c * 7) = 2 ^ (c * 7) * 0x80 := by ring
        omega
      have hq64 : n / 0x80 * 2 ^ ((c + 1) * 7) < 2 ^ 64 := by
        rw [hstep]
        calc n / 0x80 * (2 ^ (c * 7) * 0x80) = n / 0x80 * 0x80 * 2 ^ (c * 7) := by ring
          _ ≤ n * 2 ^ (c * 7) := Nat.mul_le_mul_right _ (Nat.div_mul_le_self n 0x80)
          _ < 2 ^ 64 := hn
      rw [ih (n / 0x80) (Nat.div_lt_self (by omega) (by norm_num)) (c + 1) _ rest hv2 hq64]
      have harith : v + n % 0x80 * 2 ^ (c * 7) + n / 0x80 * 2 ^ ((c + 1) * 7)
          = v + n * 2 ^ (c * 7) := by
        rw [hstep]
        calc v + n % 0x80 * 2 ^ (c * 7) + n / 0x80 * (2 ^ (c * 7) * 0x80)
            = v + (0x80 * (n / 0x80) + n % 0x80) * 2 ^ (c * 7) := by ring
          _ = v + n * 2 ^ (c * 7) := by rw [Nat.div_add_mod]
      rw [harith]
      have hc : c + 1 + (varintEncode (n / 0x80)).length
          = c + ((varintEncode (n / 0x80)).length + 1) := by omega
      rw [hc]

/-- On a canonical encoding (followed by anything) `read_varint` consumes the
encoding and returns the encoded value. -/
theorem read_varint_encode (n max_bytes : Nat) (rest : List Nat)
    (hlen : (varintEncode n).length ≤ max_bytes) (hn : n < 2 ^ 64) :
    read_varint (varintEncode n ++ rest) max_bytes
      = .ok (some ((varintEncode n).length, n)) := by
  unfold read_varint
  have htake : (varintEncode n ++ rest).take max_bytes
      = varintEncode n ++ rest.take (max_bytes - (varintEncode n).length) := by
    rw [List.take_append_eq_append_take, List.take_of_length_le hlen]
  rw [htake, readVarintGo_encode n 0 0 _ (by norm_num) (by simpa using hn)]
  simp

/-- A buffer of fewer than `max_bytes` continuation bytes is merely short. -/
theorem read_varint_short (bs : List Nat) (max_bytes : Nat)
    (hcont : ∀ b ∈ bs, b &&& 0x80 ≠ 0) (hlen : bs.length < max_bytes) :
    read_varint bs max_bytes = .ok none := by
  unfold read_varint
  rw [List.take_of_length_le (by omega)]
  rw [readVarintGo_all_cont bs 0 0 hcont]
  have hmin : min bs.length max_bytes = bs.length := by omega
  rw [hmin, if_pos hlen]

/-- `read_varint32` on a canonical encoding of a value below `2 ^ 32`. -/
theorem read_varint32_encode (n : Nat) (rest : List Nat) (hn : n < 2 ^ 32) :
    read_varint32 (varintEncode n ++ rest)
      = .ok (some ((varintEncode n).length, n)) := by
  have hn35 : n < 2 ^ (5 * 7) := by
    have h := hn
    norm_num at h ⊢
    omega
  have hn64 : n < 2 ^ 64 := by
    have h := hn
    norm_num at h ⊢
    omega
  have hlen : (varintEncode n).length ≤ 5 :=
    varintEncode_length_le 5 n (by norm_num) hn35
  unfold read_varint32
  rw [read_varint_encode n 5 rest hlen hn64]
  norm_num at hn
  simp [Nat.mod_eq_of_lt hn]

/-- `read_varint64` on a canonical encoding of a value below `2 ^ 64`. -/
theorem read_varint64_encode (n : Nat) (rest : List Nat) (hn : n < 2 ^ 64) :
    read_varint64 (varintEncode n ++ rest)
      = .ok (some ((varintEncode n).length, n)) := by
  have hn70 : n < 2 ^ (10 * 7) := by
    have h := hn
    norm_num at h ⊢
    omega
  have hlen : (varintEncode n).length ≤ 10 :=
    varintEncode_length_le 10 n (by norm_num) hn70
  unfold read_varint64
  exact read_varint_encode n 10 rest hlen hn

/-- `read_varint32` on a short all-continuation buffer suspends. -/
theorem read_varint32_short (bs : List Nat)
    (hcont : ∀ b ∈ bs, b &&& 0x80 ≠ 0) (hlen : bs.length < 5) :
    read_varint32 bs = .ok none := by
  unfold read_varint32
  rw [read_varint_short bs 5 hcont hlen]

/-- C10: whenever the leading varint terminates within the first 5 bytes,
`read_varint32` succeeds with byte count `i + 1` and the value that the
5-byte-limited varint decode produced, reduced `% 2 ^ 32`; bits at position
32 and above are discarded, not reported as an error. -/
theorem c10_read_varint32_truncates (data : List Nat) (i : Nat)
    (hi5 : i < 5) (hilen : i < data.length)
    (hterm : data.get ⟨i, hilen⟩ &&& 0x80 = 0)
    (hpre : ∀ b ∈ data.take i, b &&& 0x80 ≠ 0) :
    ∃ v, read_varint data 5 = .ok (some (i + 1, v)) ∧
      read_varint32 data = .ok (some (i + 1, v % 2 ^ 32)) := by
  have hbs : i < (data.take 5).length := by
    rw [List.length_take]; omega
  have hsplit : data.take 5 =
      data.take i ++ (data.get ⟨i, hilen⟩ :: (data.take 5).drop (i + 1)) := by
    conv_lhs => rw [← List.take_append_drop i (data.take 5)]
    rw [List.take_take, List.drop_eq_getElem_cons hbs]
    congr 2
    · omega
    · exact (List.getElem_take' data hilen hi5).symm
  obtain ⟨w, hw⟩ := readVarintGo_first_term (data.take i) (data.get ⟨i, hilen⟩)
    ((data.take 5).drop (i + 1)) 0 0 hpre hterm
  have hlen : (data.take i).length = i := by
    rw [List.length_take]; omega
  have hrv : read_varint data 5 = .ok (some (i + 1, w)) := by
    unfold read_varint
    rw [hsplit, hw]
    simp [hlen]
  refine ⟨w, hrv, ?_⟩
  unfold read_varint32
  rw [hrv]

/-- C10 witness: a 5-byte varint carrying 35 set payload bits decodes to
`2 ^ 35 - 1` and `read_varint32` hands back `2 ^ 32 - 1`. -/
theorem c10_read_varint32_truncates_witness :
    ∃ v, read_varint [0xff, 0xff, 0xff, 0xff, 0x7f] 5 = .ok (some (5, v)) ∧
      read_varint32 [0xff, 0xff, 0xff, 0xff, 0x7f] = .ok (some (5, v % 2 ^ 32)) :=
  c10_read_varint32_truncates [0xff, 0xff, 0xff, 0xff, 0x7f] 4
    (by decide) (by decide) (by decide) (by decide)

/-- Length of the little-endian encoding. -/
theorem toLeBytes_length : ∀ (k n : Nat), (toLeBytes k n).length = k := by
  intro k
  induction k with
  | zero => intro n; rfl
  | succ k ih =>
    intro n
    simp only [toLeBytes, List.length_cons, ih]

/-- Round trip of the little-endian encoding. -/
theorem fromLeBytes_toLeBytes : ∀ (k n : Nat), n < 2 ^ (8 * k) →
    fromLeBytes (toLeBytes k n) = n := by
  intro k
  induction k with
  | zero =>
    intro n hn
    norm_num at hn
    simp [toLeBytes, fromLeBytes, hn]
  | succ k ih =>
    intro n hn
    have hq : n / 256 < 2 ^ (8 * k) := by
      apply Nat.div_lt_of_lt_mul
      have hpow : 2 ^ (8 * (k + 1)) = 256 * 2 ^ (8 * k) := by
        rw [show 8 * (k + 1) = 8 + 8 * k by ring, pow_add]
        norm_num
      rw [← hpow]
      exact hn
    simp only [toLeBytes, fromLeBytes, ih (n / 256) hq]
    norm_num
    omega

/-- A list with a nonempty left part is nonempty. -/
theorem isEmpty_append_left_ne (l1 l2 : List Nat) (h : l1 ≠ []) :
    (l1 ++ l2).isEmpty = false := by
  cases l1 with
  | nil => exact absurd rfl h
  | cons a l => rfl

/-- Wire-type dispatch, case `tag & 7 = 0`. -/
theorem tryFrom_mod0 (tag : Nat) (h : tag % 8 = 0) : WireType.tryFrom tag = .ok .Varint := by
  unfold WireType.tryFrom
  rw [and7_eq_mod, h]

/-- Wire-type dispatch, case `tag & 7 = 1`. -/
theorem tryFrom_mod1 (tag : Nat) (h : tag % 8 = 1) : WireType.tryFrom tag = .ok .Fixed64 := by
  unfold WireType.tryFrom
  rw [and7_eq_mod, h]

/-- Wire-type dispatch, case `tag & 7 = 2`. -/
theorem tryFrom_mod2 (tag : Nat) (h : tag % 8 = 2) :
    WireType.tryFrom tag = .ok .LengthDelimited := by
  unfold WireType.tryFrom
  rw [and7_eq_mod, h]

/-- Wire-type dispatch, case `tag & 7 = 5`. -/
theorem tryFrom_mod5 (tag : Nat) (h : tag % 8 = 5) : WireType.tryFrom tag = .ok .Fixed32 := by
  unfold WireType.tryFrom
  rw [and7_eq_mod, h]

/-- Wire-type dispatch, group cases `tag & 7 = 3, 4`. -/
theorem tryFrom_mod34 (tag : Nat) (h : tag % 8 = 3 ∨ tag % 8 = 4) :
    WireType.tryFrom tag = .error (.UnsupportedGroupWireType tag) := by
  unfold WireType.tryFrom
  rw [and7_eq_mod]
  rcases h with h | h <;> rw [h]

/-- Wire-type dispatch, unknown cases `tag & 7 = 6, 7`. -/
theorem tryFrom_mod67 (tag : Nat) (h : tag % 8 = 6 ∨ tag % 8 = 7) :
    WireType.tryFrom tag = .error (.UnknownWireType tag) := by
  unfold WireType.tryFrom
  rw [and7_eq_mod]
  rcases h with h | h <;> rw [h]

/-- The field id round-trips through the tag. -/
theorem tag_shr3 (id w : Nat) (hw : w < 8) : (id * 8 + w) >>> 3 = id := by
  rw [Nat.shiftRight_eq_div_pow]
  norm_num
  omega

/-- Decoding an encoder-produced field header (with arbitrary following
bytes): `FieldReader::next` recovers the field id, wire type and value, and
reports as consumed exactly the header's length. -/
theorem FieldReader.next_encodeHead (id : Nat) (v : EncValue) (rest : List Nat)
    (hid : id < 2 ^ 29) (hv : v.inRange) :
    FieldReader.next (encodeHead id v ++ rest) = .ok (.ok (headerReadField id v)) := by
  norm_num at hid
  cases v with
  | V n =>
    have hn : n < 2 ^ 64 := hv
    have hdata : encodeHead id (.V n) ++ rest
        = varintEncode (id * 8) ++ (varintEncode n ++ rest) := by
      simp [encodeHead, EncValue.wireBits, List.append_assoc]
    have ht32 : id * 8 < 2 ^ 32 := by norm_num; omega
    have htag := read_varint32_encode (id * 8) (varintEncode n ++ rest) ht32
    have hdrop : (varintEncode (id * 8) ++ (varintEncode n ++ rest)).drop
        (varintEncode (id * 8)).length = varintEncode n ++ rest := List.drop_left _ _
    have htf : WireType.tryFrom (id * 8) = .ok .Varint := tryFrom_mod0 _ (by omega)
    have hval := read_varint64_encode n rest hn
    have hshr : (id * 8) >>> 3 = id := by
      have h0 := tag_shr3 id 0 (by norm_num)
      simpa using h0
    rw [hdata]
    simp only [FieldReader.next, isEmpty_append_left_ne _ _ (varintEncode_ne_nil _),
      Bool.false_eq_true, if_false, htag, hdrop, htf, hval, hshr]
    simp [headerReadField, encodeHead, EncValue.wireBits, EncValue.wireType,
      EncValue.fieldValue, List.length_append, hshr]
  | F64 n =>
    have hn : n < 2 ^ 64 := hv
    have hdata : encodeHead id (.F64 n) ++ rest
        = varintEncode (id * 8 + 1) ++ (toLeBytes 8 n ++ rest) := by
      simp [encodeHead, EncValue.wireBits, List.append_assoc]
    have ht32 : id * 8 + 1 < 2 ^ 32 := by norm_num; omega
    have htag := read_varint32_encode (id * 8 + 1) (toLeBytes 8 n ++ rest) ht32
    have hdrop : (varintEncode (id * 8 + 1) ++ (toLeBytes 8 n ++ rest)).drop
        (varintEncode (id * 8 + 1)).length = toLeBytes 8 n ++ rest := List.drop_left _ _
    have htf : WireType.tryFrom (id * 8 + 1) = .ok .Fixed64 := tryFrom_mod1 _ (by omega)
    have hshr : (id * 8 + 1) >>> 3 = id := tag_shr3 id 1 (by norm_num)
    have hlen8 : ¬ ((toLeBytes 8 n ++ rest).length < 8) := by
      rw [List.length_append, toLeBytes_length]
      omega
    have htake : (toLeBytes 8 n ++ rest).take 8 = toLeBytes 8 n :=
      List.take_left' (toLeBytes_length 8 n)
    have hfle : fromLeBytes (toLeBytes 8 n) = n := fromLeBytes_toLeBytes 8 n (by norm_num; omega)
    rw [hdata]
    simp only [FieldReader.next, isEmpty_append_left_ne _ _ (varintEncode_ne_nil _),
      Bool.false_eq_true, if_false, htag, hdrop, htf, hshr]
    simp only [read_fixed64, if_neg hlen8, htake, hfle]
    simp [headerReadField, encodeHead, EncValue.wireBits, EncValue.wireType,
      EncValue.fieldValue, List.length_append, toLeBytes_length]
  | F32 n =>
    have hn : n < 2 ^ 32 := hv
    have hdata : encodeHead id (.F32 n) ++ rest
        = varintEncode (id * 8 + 5) ++ (toLeBytes 4 n ++ rest) := by
      simp [encodeHead, EncValue.wireBits, List.append_assoc]
    have ht32 : id * 8 + 5 < 2 ^ 32 := by norm_num; omega
    have htag := read_varint32_encode (id * 8 + 5) (toLeBytes 4 n ++ rest) ht32
    have hdrop : (varintEncode (id * 8 + 5) ++ (toLeBytes 4 n ++ rest)).drop
        (varintEncode (id * 8 + 5)).length = toLeBytes 4 n ++ rest := List.drop_left _ _
    have htf : WireType.tryFrom (id * 8 + 5) = .ok .Fixed32 := tryFrom_mod5 _ (by omega)
    have hshr : (id * 8 + 5) >>> 3 = id := tag_shr3 id 5 (by norm_num)
    have hlen4 : ¬ ((toLeBytes 4 n ++ rest).length < 4) := by
      rw [List.length_append, toLeBytes_length]
      omega
    have htake : (toLeBytes 4 n ++ rest).take 4 = toLeBytes 4 n :=
      List.take_left' (toLeBytes_length 4 n)
    have hfle : fromLeBytes (toLeBytes 4 n) = n := fromLeBytes_toLeBytes 4 n (by norm_num; omega)
    rw [hdata]
    simp only [FieldReader.next, isEmpty_append_left_ne _ _ (varintEncode_ne_nil _),
      Bool.false_eq_true, if_false, htag, hdrop, htf, hshr]
    simp only [read_fixed32, if_neg hlen4, htake, hfle]
    simp [headerReadField, encodeHead, EncValue.wireBits, EncValue.wireType,
      EncValue.fieldValue, List.length_append, toLeBytes_length]
  | LD len =>
    have hn : len < 2 ^ 32 := hv
    have hdata : encodeHead id (.LD len) ++ rest
        = varintEncode (id * 8 + 2) ++ (varintEncode len ++ rest) := by
      simp [encodeHead, EncValue.wireBits, List.append_assoc]
    have ht32 : id * 8 + 2 < 2 ^ 32 := by norm_num; omega
    have htag := read_varint32_encode (id * 8 + 2) (varintEncode len ++ rest) ht32
    have hdrop : (varintEncode (id * 8 + 2) ++ (varintEncode len ++ rest)).drop
        (varintEncode (id * 8 + 2)).length = varintEncode len ++ rest := List.drop_left _ _
    have htf : WireType.tryFrom (id * 8 + 2) = .ok .LengthDelimited := tryFrom_mod2 _ (by omega)
    have hval := read_varint32_encode len rest hn
    have hshr : (id * 8 + 2) >>> 3 = id := tag_shr3 id 2 (by norm_num)
    rw [hdata]
    simp only [FieldReader.next, isEmpty_append_left_ne _ _ (varintEncode_ne_nil _),
      Bool.false_eq_true, if_false, htag, hdrop, htf, hval, hshr]
    simp [headerReadField, encodeHead, EncValue.wireBits, EncValue.wireType,
      EncValue.fieldValue, List.length_append]

/-- C5: for every (wire-type, value) pair producible by a protobuf encoder,
`FieldReader::next` reports `consumed` equal to the known varint/fixed-width
header length, `field_id` equal to the encoded field number, and `field_len`
equal to the declared payload length for length-delimited fields and `0`
otherwise. -/
theorem c5_encoder_round_trip (id : Nat) (v : EncValue) (rest : List Nat)
    (hid : id < 2 ^ 29) (hv : v.inRange) :
    ∃ rf, FieldReader.next (encodeHead id v ++ rest) = .ok (.ok rf) ∧
      rf.consumed = (encodeHead id v).length ∧
      rf.field_id = id ∧
      rf.field_len = (match v with | .LD l => l | _ => 0) ∧
      rf.wire_type = v.wireType := by
  refine ⟨headerReadField id v, FieldReader.next_encodeHead id v rest hid hv, rfl, rfl, ?_, rfl⟩
  cases v <;> rfl

/-- C5 witness: a length-delimited field with id 1 and declared payload
length 3. -/
theorem c5_encoder_round_trip_witness :
    ∃ rf, FieldReader.next (encodeHead 1 (.LD 3) ++ [7, 7, 7]) = .ok (.ok rf) ∧
      rf.consumed = (encodeHead 1 (.LD 3)).length ∧
      rf.field_id = 1 ∧
      rf.field_len = (match EncValue.LD 3 with | .LD l => l | _ => 0) ∧
      rf.wire_type = (EncValue.LD 3).wireType :=
  c5_encoder_round_trip 1 (.LD 3) [7, 7, 7] (by norm_num) (by norm_num [EncValue.inRange])

/-- A nonempty buffer of fewer than 5 continuation bytes suspends inside the
tag varint. -/
theorem FieldReader.next_tag_partial (data : List Nat) (h0 : data ≠ [])
    (hcont : ∀ b ∈ data, b &&& 0x80 ≠ 0) (hlen : data.length < 5) :
    FieldReader.next data = .ok (.error .NeedMoreBytes) := by
  have hrv := read_varint32_short data hcont hlen
  have hie : data.isEmpty = false := by
    cases data with
    | nil => exact absurd rfl h0
    | cons a l => rfl
  simp only [FieldReader.next, hie, Bool.false_eq_true, if_false, hrv]

/-- After a complete tag varint, an incomplete value/length suspends. -/
theorem FieldReader.next_value_partial (t : Nat) (vpart : List Nat) (kind : WireType)
    (ht : t < 2 ^ 32)
    (htf : WireType.tryFrom t = .ok kind)
    (hsusp : match kind with
      | .Varint => read_varint64 vpart = .ok none
      | .Fixed32 => vpart.length < 4
      | .Fixed64 => vpart.length < 8
      | .LengthDelimited => read_varint32 vpart = .ok none) :
    FieldReader.next (varintEncode t ++ vpart) = .ok (.error .NeedMoreBytes) := by
  have htag := read_varint32_encode t vpart ht
  have hdrop := List.drop_left (varintEncode t) vpart
  simp only [FieldReader.next, isEmpty_append_left_ne _ _ (varintEncode_ne_nil _),
    Bool.false_eq_true, if_false, htag, hdrop, htf]
  cases kind with
  | Varint => simp only [hsusp]
  | Fixed32 => simp only [read_fixed32, if_pos hsusp]
  | Fixed64 => simp only [read_fixed64, if_pos hsusp]
  | LengthDelimited => simp only [hsusp]

/-- C4: incremental feed equivalence.  For any encoder-producible field, every
nonempty strict prefix of its header yields `NeedMoreBytes` (the empty buffer
is the distinct idle status by design, §4.2), and once the header is complete
the result is the identical successful `ReadField` whatever else follows — the
suspended result carries no consumption count, so a retry re-reads from the
buffer start.  This covers value varints of 1-10 bytes and all four wire
types. -/
theorem c4_incremental_feed (id : Nat) (v : EncValue)
    (hid : id < 2 ^ 29) (hv : v.inRange) :
    (∀ k, 1 ≤ k → k < (encodeHead id v).length →
      FieldReader.next ((encodeHead id v).take k) = .ok (.error .NeedMoreBytes)) ∧
    (∀ rest, FieldReader.next (encodeHead id v ++ rest) = FieldReader.next (encodeHead id v)) ∧
    FieldReader.next (encodeHead id v) = .ok (.ok (headerReadField id v)) := by
  have hfull : ∀ rest, FieldReader.next (encodeHead id v ++ rest)
      = .ok (.ok (headerReadField id v)) :=
    fun rest => FieldReader.next_encodeHead id v rest hid hv
  have hnil : FieldReader.next (encodeHead id v) = .ok (.ok (headerReadField id v)) := by
    have h := hfull []
    rwa [List.append_nil] at h
  refine ⟨?_, fun rest => by rw [hfull rest, hnil], hnil⟩
  intro k hk1 hk2
  have hw8 : v.wireBits < 8 := by cases v <;> simp [EncValue.wireBits]
  have ht32 : id * 8 + v.wireBits < 2 ^ 32 := by
    have hid' : id < 536870912 := by norm_num at hid; exact hid
    norm_num
    omega
  have htagLen : (varintEncode (id * 8 + v.wireBits)).length ≤ 5 := by
    apply varintEncode_length_le 5 _ (by norm_num)
    have h35 : (2 : Nat) ^ 32 ≤ 2 ^ (5 * 7) := by norm_num
    omega
  rcases Nat.lt_or_ge k (varintEncode (id * 8 + v.wireBits)).length with hk | hk
  · -- the cut falls inside the tag varint
    have hsplit : (encodeHead id v).take k = (varintEncode (id * 8 + v.wireBits)).take k := by
      simp only [encodeHead]
      rw [List.take_append_eq_append_take, Nat.sub_eq_zero_of_le (le_of_lt hk),
        List.take_zero, List.append_nil]
    rw [hsplit]
    have hlen : ((varintEncode (id * 8 + v.wireBits)).take k).length = k := by
      rw [List.length_take]
      omega
    apply FieldReader.next_tag_partial
    · intro hnil2
      rw [hnil2] at hlen
      simp at hlen
      omega
    · exact varintEncode_take_cont _ k hk
    · omega
  · -- the cut falls inside the value encoding
    cases v with
    | V n =>
      have hlenv : k - (varintEncode (id * 8 + EncValue.wireBits (.V n))).length
          < (varintEncode n).length := by
        have := hk2
        simp only [encodeHead, List.length_append] at this
        omega
      have hvlen10 : (varintEncode n).length ≤ 10 :=
        varintEncode_length_le 10 n (by norm_num) (by
          have hn : n < 2 ^ 64 := hv
          have h70 : (2 : Nat) ^ 64 ≤ 2 ^ (10 * 7) := by norm_num
          omega)
      have hsplit : (encodeHead id (.V n)).take k
          = varintEncode (id * 8 + EncValue.wireBits (.V n))
            ++ (varintEncode n).take (k - (varintEncode (id * 8 + EncValue.wireBits (.V n))).length) := by
        simp only [encodeHead]
        rw [List.take_append_eq_append_take, List.take_of_length_le hk]
      rw [hsplit]
      apply FieldReader.next_value_partial _ _ .Varint ht32 (tryFrom_mod0 _ (by simp only [EncValue.wireBits]; omega))
      · show read_varint64 _ = .ok none
        unfold read_varint64
        apply read_varint_short
        · exact varintEncode_take_cont _ _ hlenv
        · rw [List.length_take]
          omega
    | F64 n =>
      have hlenv : k - (varintEncode (id * 8 + EncValue.wireBits (.F64 n))).length < 8 := by
        have := hk2
        simp only [encodeHead, List.length_append, toLeBytes_length] at this
        omega
      have hsplit : (encodeHead id (.F64 n)).take k
          = varintEncode (id * 8 + EncValue.wireBits (.F64 n))
            ++ (toLeBytes 8 n).take (k - (varintEncode (id * 8 + EncValue.wireBits (.F64 n))).length) := by
        simp only [encodeHead]
        rw [List.take_append_eq_append_take, List.take_of_length_le hk]
      rw [hsplit]
      apply FieldReader.next_value_partial _ _ .Fixed64 ht32 (tryFrom_mod1 _ (by simp only [EncValue.wireBits]; omega))
      · show List.length _ < 8
        rw [List.length_take, toLeBytes_length]
        omega
    | F32 n =>
      have hlenv : k - (varintEncode (id * 8 + EncValue.wireBits (.F32 n))).length < 4 := by
        have := hk2
        simp only [encodeHead, List.length_append, toLeBytes_length] at this
        omega
      have hsplit : (encodeHead id (.F32 n)).take k
          = varintEncode (id * 8 + EncValue.wireBits (.F32 n))
            ++ (toLeBytes 4 n).take (k - (varintEncode (id * 8 + EncValue.wireBits (.F32 n))).length) := by
        simp only [encodeHead]
        rw [List.take_append_eq_append_take, List.take_of_length_le hk]
      rw [hsplit]
      apply FieldReader.next_value_partial _ _ .Fixed32 ht32 (tryFrom_mod5 _ (by simp only [EncValue.wireBits]; omega))
      · show List.length _ < 4
        rw [List.length_take, toLeBytes_length]
        omega
    | LD len =>
      have hlenv : k - (varintEncode (id * 8 + EncValue.wireBits (.LD len))).length
          < (varintEncode len).length := by
        have := hk2
        simp only [encodeHead, List.length_append] at this
        omega
      have hvlen5 : (varintEncode len).length ≤ 5 :=
        varintEncode_length_le 5 len (by norm_num) (by
          have hn : len < 2 ^ 32 := hv
          have h35 : (2 : Nat) ^ 32 ≤ 2 ^ (5 * 7) := by norm_num
          omega)
      have hsplit : (encodeHead id (.LD len)).take k
          = varintEncode (id * 8 + EncValue.wireBits (.LD len))
            ++ (varintEncode len).take (k - (varintEncode (id * 8 + EncValue.wireBits (.LD len))).length) := by
        simp only [encodeHead]
        rw [List.take_append_eq_append_take, List.take_of_length_le hk]
      rw [hsplit]
      apply FieldReader.next_value_partial _ _ .LengthDelimited ht32 (tryFrom_mod2 _ (by simp only [EncValue.wireBits]; omega))
      · show read_varint32 _ = .ok none
        apply read_varint32_short
        · exact varintEncode_take_cont _ _ hlenv
        · rw [List.length_take]
          omega

/-- C4 witness: a varint field with id 1 and the two-byte value 300. -/
theorem c4_incremental_feed_witness :
    (∀ k, 1 ≤ k → k < (encodeHead 1 (.V 300)).length →
      FieldReader.next ((encodeHead 1 (.V 300)).take k) = .ok (.error .NeedMoreBytes)) ∧
    (∀ rest, FieldReader.next (encodeHead 1 (.V 300) ++ rest)
      = FieldReader.next (encodeHead 1 (.V 300))) ∧
    FieldReader.next (encodeHead 1 (.V 300)) = .ok (.ok (headerReadField 1 (.V 300))) :=
  c4_incremental_feed 1 (.V 300) (by norm_num) (by norm_num [EncValue.inRange])

/-- A successful `read_fixed32` always reports 4 consumed bytes. -/
theorem read_fixed32_bytes (bs : List Nat) (c x : Nat)
    (h : read_fixed32 bs = some (c, x)) : c = 4 := by
  unfold read_fixed32 at h
  split at h
  · cases h
  · simp only [Option.some.injEq, Prod.mk.injEq] at h
    exact h.1.symm

/-- A successful `read_fixed64` always reports 8 consumed bytes. -/
theorem read_fixed64_bytes (bs : List Nat) (c x : Nat)
    (h : read_fixed64 bs = some (c, x)) : c = 8 := by
  unfold read_fixed64 at h
  split at h
  · cases h
  · simp only [Option.some.injEq, Prod.mk.injEq] at h
    exact h.1.symm

/-- Inversion of a successful `FieldReader::next`: the tag varint decoded, the
field id is `tag >> 3`, the wire type comes from `tag & 7`, and `consumed` is
the tag bytes plus the value (or declared-length) bytes. -/
theorem FieldReader.next_ok_shape (data : List Nat) (rf : ReadField)
    (h : FieldReader.next data = .ok (.ok rf)) :
    ∃ c tag, read_varint32 data = .ok (some (c, tag)) ∧
      rf.field.id = tag >>> 3 ∧
      WireType.tryFrom tag = .ok rf.field.kind ∧
      ((rf.field.kind = .Varint ∧ ∃ c2 x,
          read_varint64 (data.drop c) = .ok (some (c2, x)) ∧
          rf.consumed = c + c2 ∧ rf.field.value = .Varint x) ∨
       (rf.field.kind = .Fixed32 ∧ ∃ x,
          read_fixed32 (data.drop c) = some (4, x) ∧
          rf.consumed = c + 4 ∧ rf.field.value = .Fixed32 x) ∨
       (rf.field.kind = .Fixed64 ∧ ∃ x,
          read_fixed64 (data.drop c) = some (8, x) ∧
          rf.consumed = c + 8 ∧ rf.field.value = .Fixed64 x) ∨
       (rf.field.kind = .LengthDelimited ∧ ∃ c2 l,
          read_varint32 (data.drop c) = .ok (some (c2, l)) ∧
          rf.consumed = c + c2 ∧ rf.field.value = .DataLength l)) := by
  simp only [FieldReader.next] at h
  split at h
  · simp at h
  · split at h
    · simp at h
    · simp at h
    · rename_i consumed tag heq
      split at h
      · simp at h
      · rename_i kind htf
        split at h
        · simp at h
        · simp at h
        · rename_i additional value hvres
          simp only [Except.ok.injEq] at h
          subst h
          split at hvres
          · -- Varint
            split at hvres
            · simp at hvres
            · simp at hvres
            · rename_i c2 x hval
              simp only [Except.ok.injEq, Option.some.injEq, Prod.mk.injEq] at hvres
              obtain ⟨ha, hfv⟩ := hvres
              subst ha
              subst hfv
              exact ⟨consumed, tag, heq, rfl, htf,
                .inl ⟨rfl, c2, x, hval, rfl, rfl⟩⟩
          · -- Fixed32
            split at hvres
            · simp at hvres
            · rename_i c2 x hval
              have hc2 : c2 = 4 := read_fixed32_bytes _ _ _ hval
              subst hc2
              simp only [Except.ok.injEq, Option.some.injEq, Prod.mk.injEq] at hvres
              obtain ⟨ha, hfv⟩ := hvres
              subst ha
              subst hfv
              exact ⟨consumed, tag, heq, rfl, htf,
                .inr (.inl ⟨rfl, x, hval, rfl, rfl⟩)⟩
          · -- Fixed64
            split at hvres
            · simp at hvres
            · rename_i c2 x hval
              have hc2 : c2 = 8 := read_fixed64_bytes _ _ _ hval
              subst hc2
              simp only [Except.ok.injEq, Option.some.injEq, Prod.mk.injEq] at hvres
              obtain ⟨ha, hfv⟩ := hvres
              subst ha
              subst hfv
              exact ⟨consumed, tag, heq, rfl, htf,
                .inr (.inr (.inl ⟨rfl, x, hval, rfl, rfl⟩))⟩
          · -- LengthDelimited
            split at hvres
            · simp at hvres
            · simp at hvres
            · rename_i c2 l hval
              simp only [Except.ok.injEq, Option.some.injEq, Prod.mk.injEq] at hvres
              obtain ⟨ha, hfv⟩ := hvres
              subst ha
              subst hfv
              exact ⟨consumed, tag, heq, rfl, htf,
                .inr (.inr (.inr ⟨rfl, c2, l, hval, rfl, rfl⟩))⟩

/-- C2 (corrected): `consumed` covers the tag varint plus the value's own wire
encoding — the value varint for varint fields, 4 or 8 bytes for fixed32 and
fixed64 — and for length-delimited fields the tag and length varints but never
the payload (whose length is reported separately as `field_len`). -/
theorem c2_consumed_covers_header (data : List Nat) (rf : ReadField)
    (h : FieldReader.next data = .ok (.ok rf)) :
    ∃ c tag, read_varint32 data = .ok (some (c, tag)) ∧
      (rf.field.kind = .LengthDelimited →
        ∃ c2 l, read_varint32 (data.drop c) = .ok (some (c2, l)) ∧
          rf.consumed = c + c2 ∧ rf.field_len = l) ∧
      (rf.field.kind = .Varint →
        ∃ c2 x, read_varint64 (data.drop c) = .ok (some (c2, x)) ∧ rf.consumed = c + c2) ∧
      (rf.field.kind = .Fixed32 → rf.consumed = c + 4) ∧
      (rf.field.kind = .Fixed64 → rf.consumed = c + 8) := by
  obtain ⟨c, tag, htag, _, _, hcase⟩ := FieldReader.next_ok_shape data rf h
  refine ⟨c, tag, htag, ?_, ?_, ?_, ?_⟩
  · intro hld
    rcases hcase with ⟨hk, _⟩ | ⟨hk, _⟩ | ⟨hk, _⟩ | ⟨_, c2, l, hval, hcons, hv⟩
    · rw [hk] at hld; cases hld
    · rw [hk] at hld; cases hld
    · rw [hk] at hld; cases hld
    · exact ⟨c2, l, hval, hcons, by simp [ReadField.field_len, FieldInfo.bytes_to_skip, hv]⟩
  · intro hvt
    rcases hcase with ⟨_, c2, x, hval, hcons, _⟩ | ⟨hk, _⟩ | ⟨hk, _⟩ | ⟨hk, _⟩
    · exact ⟨c2, x, hval, hcons⟩
    · rw [hk] at hvt; cases hvt
    · rw [hk] at hvt; cases hvt
    · rw [hk] at hvt; cases hvt
  · intro hf32
    rcases hcase with ⟨hk, _⟩ | ⟨_, x, hval, hcons, _⟩ | ⟨hk, _⟩ | ⟨hk, _⟩
    · rw [hk] at hf32; cases hf32
    · exact hcons
    · rw [hk] at hf32; cases hf32
    · rw [hk] at hf32; cases hf32
  · intro hf64
    rcases hcase with ⟨hk, _⟩ | ⟨hk, _⟩ | ⟨_, x, hval, hcons, _⟩ | ⟨hk, _⟩
    · rw [hk] at hf64; cases hf64
    · rw [hk] at hf64; cases hf64
    · exact hcons
    · rw [hk] at hf64; cases hf64

/-- C2 witness: the varint field `[0x08, 0x2a]` (id 1, value 42). -/
theorem c2_consumed_covers_header_witness :
    ∃ c tag, read_varint32 [8, 42] = .ok (some (c, tag)) ∧
      (({ consumed := 2, field := { id := 1, kind := .Varint, value := .Varint 42 }}
          : ReadField).field.kind = .LengthDelimited →
        ∃ c2 l, read_varint32 (List.drop c [8, 42]) = .ok (some (c2, l)) ∧
          (2 : Nat) = c + c2 ∧
          ({ consumed := 2, field := { id := 1, kind := .Varint, value := .Varint 42 } }
            : ReadField).field_len = l) ∧
      (({ consumed := 2, field := { id := 1, kind := .Varint, value := .Varint 42 } }
          : ReadField).field.kind = .Varint →
        ∃ c2 x, read_varint64 (List.drop c [8, 42]) = .ok (some (c2, x)) ∧ (2 : Nat) = c + c2) ∧
      (({ consumed := 2, field := { id := 1, kind := .Varint, value := .Varint 42 } }
          : ReadField).field.kind = .Fixed32 → (2 : Nat) = c + 4) ∧
      (({ consumed := 2, field := { id := 1, kind := .Varint, value := .Varint 42 } }
          : ReadField).field.kind = .Fixed64 → (2 : Nat) = c + 8) :=
  c2_consumed_covers_header [8, 42]
    { consumed := 2, field := { id := 1, kind := .Varint, value := .Varint 42 } } rfl

/-- C2 counterexample: on the varint field `[0x08, 0x2a]` the tag varint is a
single byte yet `consumed = 2`; the value byte (the field's payload) is
included, so `consumed` does not cover only the tag bytes. -/
theorem c2_counterexample :
    FieldReader.next [8, 42]
      = .ok (.ok { consumed := 2, field := { id := 1, kind := .Varint, value := .Varint 42 } }) ∧
    read_varint32 [8, 42] = .ok (some (1, 8)) ∧
    (2 : Nat) ≠ 1 :=
  ⟨rfl, rfl, by decide⟩

/-- C9: for every successfully decoded tag varint, the field id is `tag >> 3`
and the low three bits select the wire type (0 varint, 1 fixed64,
2 length-delimited, 5 fixed32); values 3 and 4 abort with
`UnsupportedGroupWireType`, 6 and 7 with `UnknownWireType`, and in the error
cases the whole call returns the error, never a `ReadField`. -/
theorem c9_wire_type_mapping (data : List Nat) (c tag : Nat)
    (htag : read_varint32 data = .ok (some (c, tag))) :
    ((tag % 8 = 3 ∨ tag % 8 = 4) →
      FieldReader.next data = .error (.UnsupportedGroupWireType tag)) ∧
    ((tag % 8 = 6 ∨ tag % 8 = 7) →
      FieldReader.next data = .error (.UnknownWireType tag)) ∧
    (∀ rf, FieldReader.next data = .ok (.ok rf) →
      rf.field_id = tag >>> 3 ∧
      (tag % 8 = 0 → rf.wire_type = .Varint) ∧
      (tag % 8 = 1 → rf.wire_type = .Fixed64) ∧
      (tag % 8 = 2 → rf.wire_type = .LengthDelimited) ∧
      (tag % 8 = 5 → rf.wire_type = .Fixed32)) := by
  have hne : data.isEmpty = false := by
    cases data with
    | nil =>
      simp [read_varint32, read_varint, readVarintGo] at htag
    | cons a l => rfl
  refine ⟨?_, ?_, ?_⟩
  · intro h34
    simp only [FieldReader.next, hne, Bool.false_eq_true, if_false, htag,
      tryFrom_mod34 tag h34]
  · intro h67
    simp only [FieldReader.next, hne, Bool.false_eq_true, if_false, htag,
      tryFrom_mod67 tag h67]
  · intro rf hok
    obtain ⟨c2, tag2, htag2, hfid, htf, _⟩ := FieldReader.next_ok_shape data rf hok
    rw [htag] at htag2
    simp only [Except.ok.injEq, Option.some.injEq, Prod.mk.injEq] at htag2
    obtain ⟨-, htageq⟩ := htag2
    subst htageq
    refine ⟨hfid, ?_, ?_, ?_, ?_⟩
    · intro h0
      have := tryFrom_mod0 tag h0
      rw [htf] at this
      simp only [Except.ok.injEq] at this
      simp only [ReadField.wire_type]
      exact this
    · intro h1
      have := tryFrom_mod1 tag h1
      rw [htf] at this
      simp only [Except.ok.injEq] at this
      simp only [ReadField.wire_type]
      exact this
    · intro h2
      have := tryFrom_mod2 tag h2
      rw [htf] at this
      simp only [Except.ok.injEq] at this
      simp only [ReadField.wire_type]
      exact this
    · intro h5
      have := tryFrom_mod5 tag h5
      rw [htf] at this
      simp only [Except.ok.injEq] at this
      simp only [ReadField.wire_type]
      exact this

/-- C9 witness: tag byte `0x1b` (field 3, low bits 3) is the group wire type
and aborts; tag byte `0x08` decodes to field 1, wire type varint. -/
theorem c9_wire_type_mapping_witness :
    ((27 % 8 = 3 ∨ 27 % 8 = 4) →
      FieldReader.next [27] = .error (.UnsupportedGroupWireType 27)) ∧
    ((27 % 8 = 6 ∨ 27 % 8 = 7) →
      FieldReader.next [27] = .error (.UnknownWireType 27)) ∧
    (∀ rf, FieldReader.next [27] = .ok (.ok rf) →
      rf.field_id = 27 >>> 3 ∧
      (27 % 8 = 0 → rf.wire_type = .Varint) ∧
      (27 % 8 = 1 → rf.wire_type = .Fixed64) ∧
      (27 % 8 = 2 → rf.wire_type = .LengthDelimited) ∧
      (27 % 8 = 5 → rf.wire_type = .Fixed32)) :=
  c9_wire_type_mapping [27] 1 27 rfl

/-- C3: on a message that violates the declared nested-message length (outer
field 2 declares a 1-byte payload, yet its nested fields run to offset 4, past
the remembered boundary 3, before any closing `decide_after` fires), the
session with the ipfs `Document` matcher panics at the boundary `assert!` in
`decide_before`.  It does not fail with `FailedMatcherNesting`: that variant is
constructed nowhere in the crate, and the `Matcher` trait's `decide_before`
cannot even return a `DecodingError`. -/
theorem c3_nesting_violation_panics :
    MatcherFields.session docPolicy 10 (MatcherFields.new Document.Top)
        [0x12, 0x01, 0x18, 0x01, 0x18, 0x01]
      = (.panicked,
         [{ tag := .StartPbLink, offset := 0, value := .Marker },
          { tag := .PbLinkTotalSize, offset := 2, value := .Varint 1 }]) ∧
    ∀ e : DecodingError,
      (MatcherFields.session docPolicy 10 (MatcherFields.new Document.Top)
          [0x12, 0x01, 0x18, 0x01, 0x18, 0x01]).1 ≠ .got (.inl e) := by
  have h1 : MatcherFields.session docPolicy 10 (MatcherFields.new Document.Top)
      [0x12, 0x01, 0x18, 0x01, 0x18, 0x01]
      = (.panicked,
         [{ tag := .StartPbLink, offset := 0, value := .Marker },
          { tag := .PbLinkTotalSize, offset := 2, value := .Varint 1 }]) := by decide
  refine ⟨h1, ?_⟩
  intro e h
  rw [h1] at h
  simp at h

/-- The varint loop's reported count is bounded by its input. -/
theorem readVarintGo_count_le : ∀ (bs : List Nat) (c v n val : Nat),
    readVarintGo bs c v = some (n, val) → n ≤ c + bs.length := by
  intro bs
  induction bs with
  | nil => intro c v n val h; cases h
  | cons b rest ih =>
    intro c v n val h
    simp only [readVarintGo] at h
    split at h
    · simp only [Option.some.injEq, Prod.mk.injEq] at h
      simp only [List.length_cons]
      omega
    · have := ih (c + 1) _ n val h
      simp only [List.length_cons]
      omega

/-- `read_varint` consumes at most the input. -/
theorem read_varint_count_le (data : List Nat) (max_bytes n val : Nat)
    (h : read_varint data max_bytes = .ok (some (n, val))) : n ≤ data.length := by
  unfold read_varint at h
  split at h
  · rename_i r heq
    simp only [Except.ok.injEq, Option.some.injEq] at h
    subst h
    have := readVarintGo_count_le _ _ _ _ _ heq
    have hlen := List.length_take max_bytes data
    omega
  · split at h
    · simp at h
    · split at h <;> simp at h

/-- `read_varint32` consumes at most the input. -/
theorem read_varint32_count_le (data : List Nat) (n val : Nat)
    (h : read_varint32 data = .ok (some (n, val))) : n ≤ data.length := by
  unfold read_varint32 at h
  split at h
  · rename_i b v heq
    simp only [Except.ok.injEq, Option.some.injEq, Prod.mk.injEq] at h
    obtain ⟨hb, -⟩ := h
    subst hb
    exact read_varint_count_le data 5 _ _ heq
  · simp at h
  · simp at h

/-- `read_varint64` consumes at most the input. -/
theorem read_varint64_count_le (data : List Nat) (n val : Nat)
    (h : read_varint64 data = .ok (some (n, val))) : n ≤ data.length :=
  read_varint_count_le data 10 n val h

/-- A successful `read_fixed32` has at least 4 input bytes. -/
theorem read_fixed32_input_le (bs : List Nat) (c x : Nat)
    (h : read_fixed32 bs = some (c, x)) : 4 ≤ bs.length := by
  unfold read_fixed32 at h
  split at h
  · cases h
  · omega

/-- A successful `read_fixed64` has at least 8 input bytes. -/
theorem read_fixed64_input_le (bs : List Nat) (c x : Nat)
    (h : read_fixed64 bs = some (c, x)) : 8 ≤ bs.length := by
  unfold read_fixed64 at h
  split at h
  · cases h
  · omega

/-- A successful field read never reports more consumed bytes than the buffer
holds. -/
theorem FieldReader.next_consumed_le (data : List Nat) (rf : ReadField)
    (h : FieldReader.next data = .ok (.ok rf)) : rf.consumed ≤ data.length := by
  obtain ⟨c, tag, htag, -, -, hcase⟩ := FieldReader.next_ok_shape data rf h
  have hc : c ≤ data.length := read_varint32_count_le data c tag htag
  have hdrop : (data.drop c).length = data.length - c := List.length_drop c data
  rcases hcase with ⟨-, c2, x, hval, hcons, -⟩ | ⟨-, x, hval, hcons, -⟩
    | ⟨-, x, hval, hcons, -⟩ | ⟨-, c2, l, hval, hcons, -⟩
  · have := read_varint64_count_le _ _ _ hval
    omega
  · have := read_fixed32_input_le _ _ _ hval
    omega
  · have := read_fixed64_input_le _ _ _ hval
    omega
  · have := read_varint32_count_le _ _ _ hval
    omega

/-- One `advance` step moves the offset forward by exactly the number of bytes
it consumed from the buffer (and never more than the buffer holds, and never
backwards). -/
theorem MatcherFields.advance_consumption {S T : Type} (M : MatcherPolicy S T)
    (mf : MatcherFields S T) (buf : List Nat) (mf2 : MatcherFields S T)
    (buf2 : List Nat) (res : Except Status (Option (Matched T)))
    (h : MatcherFields.advance M mf buf = some (.ok (mf2, buf2, res))) :
    mf.offset ≤ mf2.offset ∧ mf2.offset - mf.offset ≤ buf.length ∧
      buf2 = buf.drop (mf2.offset - mf.offset) := by
  simp only [MatcherFields.advance] at h
  split at h
  · -- DecidingAfter
    split at h <;>
    · simp only [Option.some.injEq, Except.ok.injEq, Prod.mk.injEq] at h
      obtain ⟨h1, h2, -⟩ := h
      subst h1
      subst h2
      exact ⟨le_refl _, by simp, by simp⟩
  · -- Gathering
    split at h
    · simp only [Option.some.injEq, Except.ok.injEq, Prod.mk.injEq] at h
      obtain ⟨h1, h2, -⟩ := h
      subst h1
      subst h2
      exact ⟨le_refl _, by simp, by simp⟩
    · rename_i hge
      simp only [Option.some.injEq, Except.ok.injEq, Prod.mk.injEq] at h
      obtain ⟨h1, h2, -⟩ := h
      subst h1
      subst h2
      refine ⟨by simp, ?_, ?_⟩
      · simp only [Nat.add_sub_cancel_left]
        omega
      · simp only [Nat.add_sub_cancel_left]
  · -- Skipping
    split at h <;>
    · simp only [Option.some.injEq, Except.ok.injEq, Prod.mk.injEq] at h
      obtain ⟨h1, h2, -⟩ := h
      subst h1
      subst h2
      refine ⟨by simp, ?_, ?_⟩
      · simp only [Nat.add_sub_cancel_left]
        omega
      · simp only [Nat.add_sub_cancel_left]
  · -- Ready
    split at h
    · simp at h
    · simp only [Option.some.injEq, Except.ok.injEq, Prod.mk.injEq] at h
      obtain ⟨h1, h2, -⟩ := h
      subst h1
      subst h2
      exact ⟨le_refl _, by simp, by simp⟩
    · rename_i read hread
      have hle := FieldReader.next_consumed_le buf read hread
      split at h
      · cases h
      · simp only [Option.some.injEq, Except.ok.injEq, Prod.mk.injEq] at h
        obtain ⟨h1, h2, -⟩ := h
        subst h1
        subst h2
        refine ⟨by simp, ?_, ?_⟩
        · simp only [Nat.add_sub_cancel_left]
          omega
        · simp only [Nat.add_sub_cancel_left]
      · split at h
        · simp only [Option.some.injEq, Except.ok.injEq, Prod.mk.injEq] at h
          obtain ⟨h1, h2, -⟩ := h
          subst h1
          subst h2
          refine ⟨by simp, ?_, ?_⟩
          · simp only [Nat.add_sub_cancel_left]
            omega
          · simp only [Nat.add_sub_cancel_left]
        · simp only [Option.some.injEq, Except.ok.injEq, Prod.mk.injEq] at h
          obtain ⟨h1, h2, -⟩ := h
          subst h1
          subst h2
          refine ⟨by simp, ?_, ?_⟩
          · simp only [Nat.add_sub_cancel_left]
            omega
          · simp only [Nat.add_sub_cancel_left]
        · simp only [Option.some.injEq, Except.ok.injEq, Prod.mk.injEq] at h
          obtain ⟨h1, h2, -⟩ := h
          subst h1
          subst h2
          refine ⟨by simp, ?_, ?_⟩
          · simp only [Nat.add_sub_cancel_left]
            omega
          · simp only [Nat.add_sub_cancel_left]
        · cases h
      · simp only [Option.some.injEq, Except.ok.injEq, Prod.mk.injEq] at h
        obtain ⟨h1, h2, -⟩ := h
        subst h1
        subst h2
        refine ⟨by simp, ?_, ?_⟩
        · simp only [Nat.add_sub_cancel_left]
          omega
        · simp only [Nat.add_sub_cancel_left]
      · simp only [Option.some.injEq, Except.ok.injEq, Prod.mk.injEq] at h
        obtain ⟨h1, h2, -⟩ := h
        subst h1
        subst h2
        refine ⟨by simp, ?_, ?_⟩
        · simp only [Nat.add_sub_cancel_left]
          omega
        · simp only [Nat.add_sub_cancel_left]

/-- `next` (the `advance` loop) moves the offset forward by exactly the number
of bytes it consumed from the buffer across all its internal steps. -/
theorem MatcherFields.nextFuel_consumption {S T : Type} (M : MatcherPolicy S T) :
    ∀ (fuel : Nat) (mf : MatcherFields S T) (buf : List Nat)
      (mf2 : MatcherFields S T) (buf2 : List Nat) (res : Except Status (Matched T)),
    MatcherFields.nextFuel M fuel mf buf = .got (.ok (mf2, buf2, res)) →
    mf.offset ≤ mf2.offset ∧ mf2.offset - mf.offset ≤ buf.length ∧
      buf2 = buf.drop (mf2.offset - mf.offset) := by
  intro fuel
  induction fuel with
  | zero =>
    intro mf buf mf2 buf2 res h
    simp [MatcherFields.nextFuel] at h
  | succ fuel ih =>
    intro mf buf mf2 buf2 res h
    simp only [MatcherFields.nextFuel] at h
    split at h
    · cases h
    · simp at h
    · rename_i mfA bufA s hadv
      simp only [RunRes.got.injEq, Except.ok.injEq, Prod.mk.injEq] at h
      obtain ⟨h1, h2, -⟩ := h
      subst h1
      subst h2
      exact MatcherFields.advance_consumption M mf buf _ _ _ hadv
    · rename_i mfA bufA m hadv
      simp only [RunRes.got.injEq, Except.ok.injEq, Prod.mk.injEq] at h
      obtain ⟨h1, h2, -⟩ := h
      subst h1
      subst h2
      exact MatcherFields.advance_consumption M mf buf _ _ _ hadv
    · rename_i mfA bufA hadv
      have hstep := MatcherFields.advance_consumption M mf buf _ _ _ hadv
      have hrest := ih mfA bufA mf2 buf2 res h
      obtain ⟨hs1, hs2, hs3⟩ := hstep
      obtain ⟨hr1, hr2, hr3⟩ := hrest
      have hlenA : bufA.length = buf.length - (mfA.offset - mf.offset) := by
        rw [hs3, List.length_drop]
      refine ⟨by omega, by omega, ?_⟩
      rw [hr3, hs3, List.drop_drop]
      congr 1
      omega

/-- `emitLB` for machines in a plain (`Ready`/`DecidingAfter`) state. -/
theorem MatcherFields.emitLB_plain {S T : Type} (e : Nat) (mf : MatcherFields S T)
    (hoff : e ≤ mf.offset)
    (hstate : mf.state = .DecidingAfter ∨ mf.state = .Ready) :
    MatcherFields.emitLB e mf := by
  refine ⟨hoff, ?_⟩
  rcases hstate with hs | hs <;> rw [hs] <;> trivial

/-- Building `emitLB` by cases on the machine state. -/
theorem MatcherFields.emitLB_build {S T : Type} (e : Nat) (mf : MatcherFields S T)
    (h1 : e ≤ mf.offset)
    (h2 : ∀ tg readAt st am, mf.state = .Gathering tg readAt st am →
      e ≤ readAt ∧ readAt ≤ mf.offset)
    (h3 : ∀ tg readAt st am, mf.state = .Skipping tg readAt st am →
      e ≤ readAt ∧ readAt ≤ mf.offset) :
    MatcherFields.emitLB e mf := by
  refine ⟨h1, ?_⟩
  split
  · rename_i tg r st am heq
    exact h2 tg r st am heq
  · rename_i tg r st am heq
    exact h3 tg r st am heq
  · trivial

/-- One `advance` step preserves the emission lower bound, and any match it
emits has an offset at least the bound — and becomes the new bound. -/
theorem MatcherFields.advance_emitLB {S T : Type} (M : MatcherPolicy S T)
    (mf : MatcherFields S T) (buf : List Nat) (mf2 : MatcherFields S T)
    (buf2 : List Nat) (res : Except Status (Option (Matched T))) (e : Nat)
    (hLB : MatcherFields.emitLB e mf)
    (h : MatcherFields.advance M mf buf = some (.ok (mf2, buf2, res))) :
    MatcherFields.emitLB e mf2 ∧
      ∀ m, res = .ok (some m) →
        e ≤ m.offset ∧ MatcherFields.emitLB m.offset mf2 := by
  obtain ⟨hLB1, hLB2⟩ := hLB
  simp only [MatcherFields.advance] at h
  split at h
  · -- DecidingAfter
    rename_i heqst
    split at h
    · simp only [Option.some.injEq, Except.ok.injEq, Prod.mk.injEq] at h
      obtain ⟨h1, h2, h3⟩ := h
      subst h1
      subst h2
      subst h3
      constructor
      · apply MatcherFields.emitLB_plain e _ (by simp; omega)
        by_cases hc : (M.decide_after mf.matcher mf.offset).2.1 = true
        · left
          simp [hc]
        · right
          simp [hc]
      · intro m hm
        simp only [Except.ok.injEq, Option.some.injEq] at hm
        subst hm
        refine ⟨hLB1, ?_⟩
        apply MatcherFields.emitLB_plain _ _ (by simp)
        by_cases hc : (M.decide_after mf.matcher mf.offset).2.1 = true
        · left
          simp [hc]
        · right
          simp [hc]
    · simp only [Option.some.injEq, Except.ok.injEq, Prod.mk.injEq] at h
      obtain ⟨h1, h2, h3⟩ := h
      subst h1
      subst h2
      subst h3
      constructor
      · apply MatcherFields.emitLB_plain e _ (by simp; omega)
        by_cases hc : (M.decide_after mf.matcher mf.offset).2.1 = true
        · left
          simp [hc]
        · right
          simp [hc]
      · intro m hm
        simp at hm
  · -- Gathering
    rename_i tag readAt start amount heqst
    rw [heqst] at hLB2
    simp only at hLB2
    split at h
    · simp only [Option.some.injEq, Except.ok.injEq, Prod.mk.injEq] at h
      obtain ⟨h1, h2, h3⟩ := h
      subst h1
      subst h2
      subst h3
      constructor
      · refine ⟨hLB1, ?_⟩
        rw [heqst]
        exact hLB2
      · intro m hm
        cases hm
    · simp only [Option.some.injEq, Except.ok.injEq, Prod.mk.injEq] at h
      obtain ⟨h1, h2, h3⟩ := h
      subst h1
      subst h2
      subst h3
      constructor
      · apply MatcherFields.emitLB_plain e _ (by simp; omega) (.inl rfl)
      · intro m hm
        simp only [Except.ok.injEq, Option.some.injEq] at hm
        subst hm
        constructor
        · simp
          omega
        · apply MatcherFields.emitLB_plain _ _ (by simp; omega) (.inl rfl)
  · -- Skipping
    rename_i tag readAt start amount heqst
    rw [heqst] at hLB2
    simp only at hLB2
    split at h
    · simp only [Option.some.injEq, Except.ok.injEq, Prod.mk.injEq] at h
      obtain ⟨h1, h2, h3⟩ := h
      subst h1
      subst h2
      subst h3
      constructor
      · apply MatcherFields.emitLB_plain e _ (by simp; omega) (.inl rfl)
      · intro m hm
        simp only [Except.ok.injEq, Option.some.injEq] at hm
        subst hm
        constructor
        · simp
          omega
        · apply MatcherFields.emitLB_plain _ _ (by simp; omega) (.inl rfl)
    · simp only [Option.some.injEq, Except.ok.injEq, Prod.mk.injEq] at h
      obtain ⟨h1, h2, h3⟩ := h
      subst h1
      subst h2
      subst h3
      constructor
      · apply MatcherFields.emitLB_build
        · simp
          omega
        · intro tg r st am hst
          simp at hst
        · intro tg r st am hst
          simp only [MState.Skipping.injEq] at hst
          obtain ⟨-, hr, -, -⟩ := hst
          subst hr
          constructor
          · omega
          · simp
            omega
      · intro m hm
        cases hm
  · -- Ready
    rename_i heqst
    split at h
    · simp at h
    · simp only [Option.some.injEq, Except.ok.injEq, Prod.mk.injEq] at h
      obtain ⟨h1, h2, h3⟩ := h
      subst h1
      subst h2
      subst h3
      constructor
      · refine ⟨hLB1, ?_⟩
        rw [heqst]
        trivial
      · intro m hm
        cases hm
    · rename_i read hread
      split at h
      · cases h
      · -- Message
        simp only [Option.some.injEq, Except.ok.injEq, Prod.mk.injEq] at h
        obtain ⟨h1, h2, h3⟩ := h
        subst h1
        subst h2
        subst h3
        constructor
        · exact MatcherFields.emitLB_plain e _ (by simp; omega) (.inl rfl)
        · intro m hm
          rw [Except.ok.injEq] at hm
          rw [Option.map_eq_some'] at hm
          obtain ⟨tg, -, hm2⟩ := hm
          subst hm2
          exact ⟨hLB1, MatcherFields.emitLB_plain _ _ (by simp) (.inl rfl)⟩
      · -- ReadValue
        split at h
        · simp only [Option.some.injEq, Except.ok.injEq, Prod.mk.injEq] at h
          obtain ⟨h1, h2, h3⟩ := h
          subst h1
          subst h2
          subst h3
          refine ⟨MatcherFields.emitLB_plain e _ (by simp; omega) (.inl rfl), ?_⟩
          intro m hm
          simp only [Except.ok.injEq, Option.some.injEq] at hm
          subst hm
          exact ⟨hLB1, MatcherFields.emitLB_plain _ _ (by simp) (.inl rfl)⟩
        · simp only [Option.some.injEq, Except.ok.injEq, Prod.mk.injEq] at h
          obtain ⟨h1, h2, h3⟩ := h
          subst h1
          subst h2
          subst h3
          refine ⟨MatcherFields.emitLB_plain e _ (by simp; omega) (.inl rfl), ?_⟩
          intro m hm
          simp only [Except.ok.injEq, Option.some.injEq] at hm
          subst hm
          exact ⟨hLB1, MatcherFields.emitLB_plain _ _ (by simp) (.inl rfl)⟩
        · simp only [Option.some.injEq, Except.ok.injEq, Prod.mk.injEq] at h
          obtain ⟨h1, h2, h3⟩ := h
          subst h1
          subst h2
          subst h3
          refine ⟨MatcherFields.emitLB_plain e _ (by simp; omega) (.inl rfl), ?_⟩
          intro m hm
          simp only [Except.ok.injEq, Option.some.injEq] at hm
          subst hm
          exact ⟨hLB1, MatcherFields.emitLB_plain _ _ (by simp) (.inl rfl)⟩
        · cases h
      · -- ReadSlice
        simp only [Option.some.injEq, Except.ok.injEq, Prod.mk.injEq] at h
        obtain ⟨h1, h2, h3⟩ := h
        subst h1
        subst h2
        subst h3
        constructor
        · apply MatcherFields.emitLB_build
          · simp
            omega
          · intro tg r st am hst
            simp only [MState.Gathering.injEq] at hst
            obtain ⟨-, hr, -, -⟩ := hst
            subst hr
            exact ⟨hLB1, by simp⟩
          · intro tg r st am hst
            simp at hst
        · intro m hm
          cases hm
      · -- Skip
        simp only [Option.some.injEq, Except.ok.injEq, Prod.mk.injEq] at h
        obtain ⟨h1, h2, h3⟩ := h
        subst h1
        subst h2
        subst h3
        constructor
        · apply MatcherFields.emitLB_build
          · simp
            omega
          · intro tg r st am hst
            simp at hst
          · intro tg r st am hst
            simp only [MState.Skipping.injEq] at hst
            obtain ⟨-, hr, -, -⟩ := hst
            subst hr
            exact ⟨hLB1, by simp⟩
        · intro m hm
          cases hm

/-- `next` preserves the emission lower bound; an emitted match bounds from
below everything the machine can still emit. -/
theorem MatcherFields.nextFuel_emitLB {S T : Type} (M : MatcherPolicy S T) :
    ∀ (fuel : Nat) (mf : MatcherFields S T) (buf : List Nat)
      (mf2 : MatcherFields S T) (buf2 : List Nat) (res : Except Status (Matched T)) (e : Nat),
    MatcherFields.emitLB e mf →
    MatcherFields.nextFuel M fuel mf buf = .got (.ok (mf2, buf2, res)) →
    MatcherFields.emitLB e mf2 ∧
      ∀ m, res = .ok m → e ≤ m.offset ∧ MatcherFields.emitLB m.offset mf2 := by
  intro fuel
  induction fuel with
  | zero =>
    intro mf buf mf2 buf2 res e hLB h
    simp [MatcherFields.nextFuel] at h
  | succ fuel ih =>
    intro mf buf mf2 buf2 res e hLB h
    simp only [MatcherFields.nextFuel] at h
    split at h
    · cases h
    · simp at h
    · rename_i mfA bufA s hadv
      simp only [RunRes.got.injEq, Except.ok.injEq, Prod.mk.injEq] at h
      obtain ⟨h1, h2, h3⟩ := h
      subst h1
      subst h2
      subst h3
      have := MatcherFields.advance_emitLB M mf buf _ _ _ e hLB hadv
      exact ⟨this.1, fun m hm => by cases hm⟩
    · rename_i mfA bufA m hadv
      simp only [RunRes.got.injEq, Except.ok.injEq, Prod.mk.injEq] at h
      obtain ⟨h1, h2, h3⟩ := h
      subst h1
      subst h2
      subst h3
      have hres := MatcherFields.advance_emitLB M mf buf _ _ _ e hLB hadv
      refine ⟨hres.1, ?_⟩
      intro m2 hm2
      simp only [Except.ok.injEq] at hm2
      subst hm2
      exact hres.2 _ rfl
    · rename_i mfA bufA hadv
      have hstep := MatcherFields.advance_emitLB M mf buf _ _ _ e hLB hadv
      exact ih mfA bufA mf2 buf2 res e hstep.1 h

/-- Matches produced by a session come in stream order: each one's offset is
at least the running lower bound, and the emitted list is sorted by offset. -/
theorem MatcherFields.session_ordered {S T : Type} (M : MatcherPolicy S T) :
    ∀ (fuel : Nat) (mf : MatcherFields S T) (buf : List Nat) (e : Nat),
    MatcherFields.emitLB e mf →
    (∀ m ∈ (MatcherFields.session M fuel mf buf).2, e ≤ m.offset) ∧
      List.Chain' (fun a b : Matched T => a.offset ≤ b.offset)
        (MatcherFields.session M fuel mf buf).2 := by
  intro fuel
  induction fuel with
  | zero =>
    intro mf buf e hLB
    simp [MatcherFields.session]
  | succ fuel ih =>
    intro mf buf e hLB
    simp only [MatcherFields.session]
    split
    · simp
    · simp
    · simp
    · simp
    · rename_i mf2 buf2 m hnf
      obtain ⟨hLB2, hemit⟩ :=
        MatcherFields.nextFuel_emitLB M (fuel + 1) mf buf mf2 buf2 (.ok m) e hLB hnf
      obtain ⟨hme, hLBm⟩ := hemit m rfl
      obtain ⟨hall, hchain⟩ := ih mf2 buf2 m.offset hLBm
      constructor
      · intro x hx
        simp only [List.mem_cons] at hx
        rcases hx with hx | hx
        · subst hx
          exact hme
        · exact le_trans hme (hall x hx)
      · rw [List.chain'_cons']
        refine ⟨?_, hchain⟩
        intro y hy
        exact hall y (List.mem_of_mem_head? hy)

/-- C7: the driver's global offset starts at 0 at construction and is never
reset; every `next` call advances it by exactly the number of bytes consumed
from the caller's buffer in that call (so it never decreases and strictly
increases whenever bytes are consumed); and the offsets of the emitted
`Matched` items never decrease across a session. -/
theorem c7_offset_monotonic {S T : Type} (M : MatcherPolicy S T) :
    (∀ s : S, (MatcherFields.new s : MatcherFields S T).offset = 0) ∧
    (∀ fuel (mf mf2 : MatcherFields S T) (buf buf2 : List Nat) res,
      MatcherFields.nextFuel M fuel mf buf = .got (.ok (mf2, buf2, res)) →
      mf.offset ≤ mf2.offset ∧
        mf2.offset = mf.offset + (buf.length - buf2.length) ∧
        buf2 = buf.drop (mf2.offset - mf.offset)) ∧
    (∀ fuel (s : S) (buf : List Nat),
      List.Chain' (fun a b : Matched T => a.offset ≤ b.offset)
        (MatcherFields.session M fuel (MatcherFields.new s) buf).2) := by
  refine ⟨fun _ => rfl, ?_, ?_⟩
  · intro fuel mf mf2 buf buf2 res h
    obtain ⟨h1, h2, h3⟩ := MatcherFields.nextFuel_consumption M fuel mf buf mf2 buf2 res h
    refine ⟨h1, ?_, h3⟩
    have hlen : buf2.length = buf.length - (mf2.offset - mf.offset) := by
      rw [h3, List.length_drop]
    omega
  · intro fuel s buf
    have hLB0 : MatcherFields.emitLB 0 (MatcherFields.new s : MatcherFields S T) :=
      MatcherFields.emitLB_plain 0 _ (Nat.zero_le _) (.inr rfl)
    exact (MatcherFields.session_ordered M fuel (MatcherFields.new s) buf 0 hLB0).2

/-- C7 witness: a skip-everything session over one length-delimited field
(header 2 bytes, payload 3 bytes): the offset starts at 0 and `next` advances
it by exactly the 5 consumed bytes; the emitted matches are in stream order. -/
theorem c7_offset_monotonic_witness :
    (MatcherFields.new () : MatcherFields Unit Unit).offset = 0 ∧
    ((0 : Nat) ≤ 5 ∧
      (5 : Nat) = 0 + (([0x0a, 3, 9, 9, 9] : List Nat).length - ([] : List Nat).length) ∧
      ([] : List Nat) = ([0x0a, 3, 9, 9, 9] : List Nat).drop (5 - 0)) ∧
    List.Chain' (fun a b : Matched Unit => a.offset ≤ b.offset)
      (MatcherFields.session skipAllPolicy 10 (MatcherFields.new ()) [0x0a, 3, 9, 9, 9]).2 := by
  refine ⟨(c7_offset_monotonic skipAllPolicy).1 (), ?_, (c7_offset_monotonic skipAllPolicy).2.2 10 () _⟩
  have h := (c7_offset_monotonic skipAllPolicy).2.1 10
    (MatcherFields.new ()) { offset := 5, matcher := (), state := .DecidingAfter }
    [0x0a, 3, 9, 9, 9] []
    (.ok { tag := (), offset := 0, value := .Slice 2 5 }) rfl
  simp only [MatcherFields.new] at h
  exact h

/-- Feeding a pending skip one byte at a time: each call consumes its byte and
answers `NeedMoreBytes`, except the last, which emits the single `Slice` match
over the skipped range and leaves the machine `DecidingAfter`; the offset
advances by exactly the payload length. -/
theorem MatcherFields.feedSingles_skip {S T : Type} (M : MatcherPolicy S T) :
    ∀ (payload : List Nat) (off : Nat) (s2 : S) (t : T) (r st : Nat),
    0 < payload.length →
    MatcherFields.feedSingles M
        { offset := off, matcher := s2, state := .Skipping t r st payload.length } payload
      = some (.ok ({ offset := off + payload.length, matcher := s2, state := .DecidingAfter },
          List.replicate (payload.length - 1) (.error .NeedMoreBytes)
            ++ [.ok (some { tag := t, offset := r, value := .Slice st (off + payload.length) })])) := by
  intro payload
  induction payload with
  | nil =>
    intro off s2 t r st h
    simp at h
  | cons b bs ih =>
    intro off s2 t r st _
    cases bs with
    | nil =>
      simp [MatcherFields.feedSingles, MatcherFields.advance]
    | cons c cs =>
      have hadv : MatcherFields.advance M
          { offset := off, matcher := s2,
            state := .Skipping t r st (b :: c :: cs).length } [b]
          = some (.ok ({ offset := off + 1, matcher := s2, state := .Skipping t r st (c :: cs).length }, [], .error .NeedMoreBytes)) := by
        simp only [MatcherFields.advance, List.length_cons, List.length_nil, Nat.zero_add]
        rw [show min (cs.length + 1 + 1) 1 = 1 by omega]
        rw [if_neg (by omega)]
        norm_num
      have hrec := ih (off + 1) s2 t r st (by simp)
      rw [MatcherFields.feedSingles]
      rw [hadv]
      simp only [hrec]
      simp only [List.length_cons]
      rw [show off + 1 + (cs.length + 1) = off + (cs.length + 1 + 1) by omega]
      rw [show cs.length + 1 + 1 - 1 = cs.length + 1 by omega]
      rw [show cs.length + 1 - 1 = cs.length by omega]
      rw [List.replicate_succ]
      simp

/-- C6: when the matcher answers `Skip` for a length-delimited field of
declared payload size N, the header step enters `Skipping`, storing only the
tag, the header offset, the window start and the remaining count (no payload
bytes); each subsequent call consumes `min(remaining, available)` bytes and
answers `NeedMoreBytes` while any remain; feeding the payload one byte at a
time advances the offset by exactly N (plus the header, consumed by the header
step), and completion emits one `Slice` match covering exactly the N payload
bytes before moving to `DecidingAfter`. -/
theorem c6_skip_bounded {S T : Type} (M : MatcherPolicy S T)
    (mf : MatcherFields S T) (id N : Nat) (s2 : S) (tag : T)
    (hstate : mf.state = .Ready)
    (hid : id < 2 ^ 29) (hN : N < 2 ^ 32)
    (hdecide : M.decide_before mf.matcher mf.offset (headerReadField id (.LD N))
      = some (s2, .inr { tag := tag })) :
    MatcherFields.advance M mf (encodeHead id (.LD N))
      = some (.ok (MatcherFields.mk (mf.offset + (encodeHead id (.LD N)).length) s2
          (.Skipping tag mf.offset (mf.offset + (encodeHead id (.LD N)).length) N),
          [], .ok none)) ∧
    (∀ (mfS : MatcherFields S T) (t : T) (r st a : Nat) (buf : List Nat),
      mfS.state = .Skipping t r st a → 0 < a →
      (buf.length < a →
        MatcherFields.advance M mfS buf
          = some (.ok (MatcherFields.mk (mfS.offset + buf.length) mfS.matcher
              (.Skipping t r st (a - buf.length)), [], .error .NeedMoreBytes))) ∧
      (a ≤ buf.length →
        MatcherFields.advance M mfS buf
          = some (.ok (MatcherFields.mk (mfS.offset + a) mfS.matcher .DecidingAfter,
              buf.drop a,
              .ok (some { tag := t, offset := r, value := .Slice st (mfS.offset + a) }))))) ∧
    (∀ (payload : List Nat), payload.length = N → 0 < N →
      MatcherFields.feedSingles M
          (MatcherFields.mk (mf.offset + (encodeHead id (.LD N)).length) s2
            (.Skipping tag mf.offset (mf.offset + (encodeHead id (.LD N)).length) N))
          payload
        = some (.ok (MatcherFields.mk (mf.offset + (encodeHead id (.LD N)).length + N) s2
            .DecidingAfter,
            List.replicate (N - 1) (.error .NeedMoreBytes)
              ++ [.ok (some (Matched.mk tag mf.offset
                    (.Slice (mf.offset + (encodeHead id (.LD N)).length)
                      (mf.offset + (encodeHead id (.LD N)).length + N))))]))) := by
  refine ⟨?_, ?_, ?_⟩
  · have hread : FieldReader.next (encodeHead id (.LD N))
        = .ok (.ok (headerReadField id (.LD N))) := by
      have h := FieldReader.next_encodeHead id (.LD N) [] hid (by exact hN)
      rwa [List.append_nil] at h
    simp only [MatcherFields.advance, hstate, hread, hdecide]
    have hflen : (headerReadField id (.LD N)).field_len = N := rfl
    have hcons : (headerReadField id (.LD N)).consumed = (encodeHead id (.LD N)).length := rfl
    rw [hflen, hcons, List.drop_length]
  · intro mfS t r st a buf hstateS ha
    constructor
    · intro hlt
      simp only [MatcherFields.advance, hstateS]
      rw [show min a buf.length = buf.length by omega]
      rw [if_neg (by omega)]
      rw [List.drop_length]
    · intro hge
      simp only [MatcherFields.advance, hstateS]
      rw [show min a buf.length = a by omega]
      rw [if_pos (by omega)]
  · intro payload hplen hpos
    have h := MatcherFields.feedSingles_skip M payload
      (mf.offset + (encodeHead id (.LD N)).length) s2 tag mf.offset
      (mf.offset + (encodeHead id (.LD N)).length) (by omega)
    rw [hplen] at h
    exact h

/-- C6 witness: a skip-everything matcher over a field with id 1 and a 3-byte
declared payload. -/
theorem c6_skip_bounded_witness :
    MatcherFields.advance skipAllPolicy (MatcherFields.new ()) (encodeHead 1 (.LD 3))
      = some (.ok (MatcherFields.mk ((MatcherFields.new () : MatcherFields Unit Unit).offset
            + (encodeHead 1 (.LD 3)).length) ()
          (.Skipping () (MatcherFields.new () : MatcherFields Unit Unit).offset
            ((MatcherFields.new () : MatcherFields Unit Unit).offset
              + (encodeHead 1 (.LD 3)).length) 3),
          [], .ok none)) ∧
    (∀ (mfS : MatcherFields Unit Unit) (t : Unit) (r st a : Nat) (buf : List Nat),
      mfS.state = .Skipping t r st a → 0 < a →
      (buf.length < a →
        MatcherFields.advance skipAllPolicy mfS buf
          = some (.ok (MatcherFields.mk (mfS.offset + buf.length) mfS.matcher
              (.Skipping t r st (a - buf.length)), [], .error .NeedMoreBytes))) ∧
      (a ≤ buf.length →
        MatcherFields.advance skipAllPolicy mfS buf
          = some (.ok (MatcherFields.mk (mfS.offset + a) mfS.matcher .DecidingAfter,
              buf.drop a,
              .ok (some { tag := t, offset := r, value := .Slice st (mfS.offset + a) }))))) ∧
    (∀ (payload : List Nat), payload.length = 3 → 0 < 3 →
      MatcherFields.feedSingles skipAllPolicy
          (MatcherFields.mk ((MatcherFields.new () : MatcherFields Unit Unit).offset
              + (encodeHead 1 (.LD 3)).length) ()
            (.Skipping () (MatcherFields.new () : MatcherFields Unit Unit).offset
              ((MatcherFields.new () : MatcherFields Unit Unit).offset
                + (encodeHead 1 (.LD 3)).length) 3))
          payload
        = some (.ok (MatcherFields.mk ((MatcherFields.new () : MatcherFields Unit Unit).offset
              + (encodeHead 1 (.LD 3)).length + 3) () .DecidingAfter,
            List.replicate (3 - 1) (.error .NeedMoreBytes)
              ++ [.ok (some (Matched.mk () (MatcherFields.new ()
                      : MatcherFields Unit Unit).offset
                    (.Slice ((MatcherFields.new () : MatcherFields Unit Unit).offset
                        + (encodeHead 1 (.LD 3)).length)
                      ((MatcherFields.new () : MatcherFields Unit Unit).offset
                        + (encodeHead 1 (.LD 3)).length + 3))))]))) :=
  c6_skip_bounded skipAllPolicy (MatcherFields.new ()) 1 3 () () rfl
    (by norm_num) (by norm_num) rfl

/-- The gathering loop only drops bytes from its window, advances the inner
reader's offset by exactly what it drops, and leaves the cached minimum either
as it was (suspension before any match) or invalidated (`none`). -/
theorem GatheredFields.loopFuel_spec {S T G R : Type} (M : MatcherPolicy S T)
    (P : GathererPolicy G T R) :
    ∀ (fuel : Nat) (mf : MatcherFields S T) (g : G) (cached : Option Nat)
      (buf tmp : List Nat) (mf2 : MatcherFields S T) (g2 : G)
      (cached2 : Option Nat) (tmp2 : List Nat) (res : Except Status R),
    GatheredFields.loopFuel M P fuel mf g cached buf tmp
      = .got (.ok (mf2, g2, cached2, tmp2, res)) →
    mf.offset ≤ mf2.offset ∧ mf2.offset - mf.offset ≤ tmp.length ∧
      tmp2 = tmp.drop (mf2.offset - mf.offset) ∧
      (cached2 = cached ∨ cached2 = none) := by
  intro fuel
  induction fuel with
  | zero =>
    intro mf g cached buf tmp mf2 g2 cached2 tmp2 res h
    simp [GatheredFields.loopFuel] at h
  | succ fuel ih =>
    intro mf g cached buf tmp mf2 g2 cached2 tmp2 res h
    simp only [GatheredFields.loopFuel] at h
    split at h
    · cases h
    · cases h
    · simp at h
    · rename_i mfA tmpA s hnf
      simp only [RunRes.got.injEq, Except.ok.injEq, Prod.mk.injEq] at h
      obtain ⟨h1, h2, h3, h4, -⟩ := h
      subst h1
      subst h2
      subst h3
      subst h4
      obtain ⟨hc1, hc2, hc3⟩ := MatcherFields.nextFuel_consumption M (fuel + 1) mf tmp _ _ _ hnf
      exact ⟨hc1, hc2, hc3, .inl rfl⟩
    · rename_i mfA tmpA m hnf
      obtain ⟨hc1, hc2, hc3⟩ := MatcherFields.nextFuel_consumption M (fuel + 1) mf tmp _ _ _ hnf
      split at h
      · cases h
      · simp only [RunRes.got.injEq, Except.ok.injEq, Prod.mk.injEq] at h
        obtain ⟨h1, h2, h3, h4, -⟩ := h
        subst h1
        subst h2
        subst h3
        subst h4
        exact ⟨hc1, hc2, hc3, .inr rfl⟩
      · have hrest := ih mfA _ none buf tmpA mf2 g2 cached2 tmp2 res h
        obtain ⟨hr1, hr2, hr3, hr4⟩ := hrest
        have hlenA : tmpA.length = tmp.length - (mfA.offset - mf.offset) := by
          rw [hc3, List.length_drop]
        refine ⟨by omega, by omega, ?_, ?_⟩
        · rw [hr3, hc3, List.drop_drop]
          congr 1
          omega
        · rcases hr4 with hr4 | hr4 <;> exact .inr hr4

/-- C8: after each `GatheredFields::next` result, if the recomputed
`min_offset` is `none` the caller's buffer is advanced past every byte the
call consumed (including bytes previously retained for a pending aggregate),
and if it is `some` the buffer pointer is left exactly unchanged, so it never
moves past the pending minimum; the inner reader's offset never decreases.
The driver owns no state besides the inner machine, the gatherer accumulator,
and the cached minimum, so nothing else can change. -/
theorem c8_buffer_advancement {S T G R : Type} (M : MatcherPolicy S T)
    (P : GathererPolicy G T R) (fuel : Nat) (gf : GatheredFields S T G)
    (buf : List Nat) (gf2 : GatheredFields S T G) (buf2 : List Nat)
    (res : Except Status R)
    (h : GatheredFields.next M P fuel gf buf = .got (.ok (gf2, buf2, res))) :
    (∀ m, gf2.cached_min_offset = some m → buf2 = buf) ∧
    (gf2.cached_min_offset = none →
      buf2 = buf.drop ((match gf.cached_min_offset with
        | some mn => gf.reader.offset - mn
        | none => 0) + (gf2.reader.offset - gf.reader.offset))) ∧
    gf.reader.offset ≤ gf2.reader.offset := by
  simp only [GatheredFields.next] at h
  split at h
  · -- the retained-bytes window does not fit the buffer: panic
    simp at h
  · rename_i tmp hcmin
    split at h
    · cases h
    · cases h
    · simp at h
    · rename_i mfA gA cachedA tmpA resA hloop
      obtain ⟨hl1, hl2, hl3, -⟩ := GatheredFields.loopFuel_spec M P fuel gf.reader gf.gatherer
        gf.cached_min_offset buf tmp mfA gA cachedA tmpA resA hloop
      simp only [RunRes.got.injEq, Except.ok.injEq, Prod.mk.injEq] at h
      obtain ⟨h1, h2, h3⟩ := h
      subst h1
      subst h2
      subst h3
      have htmp : tmp = buf.drop (match gf.cached_min_offset with
          | some mn => gf.reader.offset - mn
          | none => 0) := by
        rcases hgfc : gf.cached_min_offset with _ | mn
        · rw [hgfc] at hcmin
          simp only [Option.some.injEq] at hcmin
          rw [← hcmin]
          simp
        · rw [hgfc] at hcmin
          simp only at hcmin
          split at hcmin
          · simp only [Option.some.injEq] at hcmin
            rw [← hcmin]
          · cases hcmin
      refine ⟨?_, ?_, ?_⟩
      · intro m hm
        cases cachedA with
        | some c => simp
        | none =>
          cases hpm : P.min_offset gA with
          | some c => simp [hpm]
          | none =>
            simp only [hpm] at hm
            cases hm
      · intro hm
        cases cachedA with
        | some c =>
          simp only at hm
          cases hm
        | none =>
          cases hpm : P.min_offset gA with
          | some c =>
            simp only [hpm] at hm
            cases hm
          | none =>
            simp only [hpm]
            rw [hl3, htmp, List.drop_drop]
      · simp only
        omega

/-- Witness for the buffer-advancement theorem: a fresh `GatheredFields` (no
cached minimum) driven by the skip-all matcher and the retain-nothing gatherer
over `[0x0a, 3, 9, 9, 9, 0x08]` yields one gathered `Slice` match; the
resulting cached minimum is `none`, so the returned buffer `[8]` is the input
advanced past all 5 consumed bytes, and the offset grew from 0 to 5. -/
theorem c8_buffer_advancement_witness :
    (GatheredFields.next skipAllPolicy passGatherer 20 (GatheredFields.new () ())
        [0x0a, 3, 9, 9, 9, 0x08] =
      .got (.ok (GatheredFields.mk (MatcherFields.mk 5 () .DecidingAfter) () none,
        [8], .ok (Matched.mk () 0 (.Slice 2 5))))) ∧
    ([8] : List Nat) = [0x0a, 3, 9, 9, 9, 0x08].drop 5 ∧ (0 : Nat) ≤ 5 :=
  ⟨rfl, by
    have h := c8_buffer_advancement skipAllPolicy passGatherer 20 (GatheredFields.new () ())
      [0x0a, 3, 9, 9, 9, 0x08] (GatheredFields.mk (MatcherFields.mk 5 () .DecidingAfter) () none)
      [8] (.ok (Matched.mk () 0 (.Slice 2 5))) rfl
    exact ⟨h.2.1 rfl, h.2.2⟩⟩

end Minipb
